import Mathlib

/-! file-zipper: a shallow embedding of `HuffmanCoding` (src/main.cpp).

The class `HuffmanCoding` is embedded function by function.

* `char` / `uint8_t` values are `Byte = Fin 256`; the sentinel `'\0'` is `0`.
* The `'0'`/`'1'` strings built by the program are `List Bool`
  (`false` is `'0'`, `true` is `'1'`).
* `int frequency` is a `Nat`.  The `int` arithmetic of the program (the
  increment of main.cpp:32 and the sum of main.cpp:49) is the arithmetic of
  `Nat` as long as every count and every sum stays below `2^31`; beyond that
  the program overflows a signed `int`.  The general theorems on the counts, on
  the merged sums, on the optimality of the tree and on the round trip carry
  that bound as a hypothesis (`text.length < 2^31`, or the sum of the counts
  below `2^31`) and show that the values stay in range; the helper lemmas are
  facts about the `Nat` definitions.
* `unordered_map<char, int>` (which is iterated) is an association list with
  distinct keys; `unordered_map<char, string>` and `unordered_map<string, char>`
  (which are only indexed) are finite partial functions.
* `priority_queue<HeapNode>` is the list of its elements.  Which of several
  nodes of equal least frequency `top()` returns is left open by the C++
  standard, as is the iteration order of the frequency map; both are covered by
  a tie-break parameter `tie`, over which the general theorems quantify.
* Undefined behaviour and thrown exceptions are results `Except Fault _`.
-/

namespace HuffmanCoding

/-- One `char` / `uint8_t`. -/
abbrev Byte := Fin 256

/-- A `std::string` holding only the characters `'0'` and `'1'`. -/
abbrev Bits := List Bool

/-- The ways in which a member function can leave its defined behaviour. -/
inductive Fault where
  /-- `heap.top()` on an empty `priority_queue` (undefined behaviour). -/
  | emptyHeapTop
  /-- `std::out_of_range` thrown by `string::substr(pos)` with `pos > size()`. -/
  | outOfRange
  deriving DecidableEq, Repr

deriving instance DecidableEq for Except

/-- `class HeapNode`.  The constructor `HeapNode(ch, freq)` sets both children to
`nullptr` (`leaf`); `mergeNodes` is the only place that assigns children, and it
assigns both (`node`). -/
inductive HeapNode where
  | leaf (character : Byte) (frequency : Nat)
  | node (character : Byte) (frequency : Nat) (left right : HeapNode)
  deriving DecidableEq, Repr

/-- Field `character`. -/
def HeapNode.character : HeapNode → Byte
  | .leaf c _ => c
  | .node c _ _ _ => c

/-- Field `frequency`. -/
def HeapNode.frequency : HeapNode → Nat
  | .leaf _ f => f
  | .node _ f _ _ => f

/-- `HeapNode::operator<`: `frequency > other.frequency`. -/
def HeapNode.lt (a other : HeapNode) : Bool :=
  decide (a.frequency > other.frequency)

/-- An `unordered_map` that is only indexed: a partial function. -/
abbrev Table (κ ν : Type) := κ → Option ν

/-- `m[k] = v`. -/
def Table.set {κ ν : Type} [DecidableEq κ] (m : Table κ ν) (k : κ) (v : ν) : Table κ ν :=
  fun k' => if k' = k then some v else m k'

/-- The empty table. -/
def Table.empty {κ ν : Type} : Table κ ν := fun _ => none

/-- The data members of `HuffmanCoding`. -/
structure State where
  codes : Table Byte Bits
  reverse_mapping : Table Bits Byte
  heap : List HeapNode

/-- A default-constructed `HuffmanCoding` object. -/
def State.fresh : State := ⟨Table.empty, Table.empty, []⟩

/-! ## Frequency table -/

/-- `frequency[ch]++` on the association list: an absent key is inserted with
value `0` and then incremented.  The increment is that of the `int` of
main.cpp:32 as long as the count stays below `2^31`, which it does for a text
of fewer than `2^31` bytes. -/
def incr (ch : Byte) : List (Byte × Nat) → List (Byte × Nat)
  | [] => [(ch, 1)]
  | (k, n) :: rest => if k = ch then (k, n + 1) :: rest else (k, n) :: incr ch rest

/-- `makeFrequencyDict(text, frequency)`. -/
def makeFrequencyDict (text : List Byte) (frequency : List (Byte × Nat)) :
    List (Byte × Nat) :=
  text.foldl (fun f ch => incr ch f) frequency

/-- Lookup in the frequency table (`find`). -/
def freqLookup (frequency : List (Byte × Nat)) (b : Byte) : Option Nat :=
  (frequency.find? (fun p => p.1 = b)).map Prod.snd

/-! ## Priority queue -/

/-- The nodes that `top()` may return: those that no other node of the heap
precedes, i.e. (by `HeapNode.lt`) the nodes of least frequency. -/
def tops (heap : List HeapNode) : List HeapNode :=
  heap.filter (fun x => heap.all (fun y => !(x.lt y)))

/-- `heap.top()`: one of the `tops`, chosen by the tie-break; undefined
behaviour on an empty heap. -/
def top (tie : List HeapNode → Nat) (heap : List HeapNode) : Except Fault HeapNode :=
  match (tops heap)[tie heap % (tops heap).length]? with
  | some x => .ok x
  | none => .error .emptyHeapTop

/-- `heap.pop()`: removes the node that `top()` returns. -/
def pop (tie : List HeapNode → Nat) (heap : List HeapNode) : List HeapNode :=
  match top tie heap with
  | .ok x => heap.erase x
  | .error _ => heap

/-- `heap.push(x)`. -/
def push (heap : List HeapNode) (x : HeapNode) : List HeapNode := heap ++ [x]

/-- `makeHeap(frequency)` on a heap that already holds `heap`. -/
def makeHeap (frequency : List (Byte × Nat)) (heap : List HeapNode) : List HeapNode :=
  frequency.foldl (fun h p => push h (.leaf p.1 p.2)) heap

/-- The `while (heap.size() > 1)` loop of `mergeNodes`, run for at most `fuel`
iterations.  The sum `left.frequency + right.frequency` is that of the two
`int` of main.cpp:49 as long as it stays below `2^31`, which it does when the
frequencies of the heap add up to less than `2^31`. -/
def mergeLoop (tie : List HeapNode → Nat) : Nat → List HeapNode → Except Fault (List HeapNode)
  | 0, heap => .ok heap
  | fuel + 1, heap =>
    if heap.length > 1 then do
      let left ← top tie heap
      let heap1 := pop tie heap
      let right ← top tie heap1
      let heap2 := pop tie heap1
      let merged := HeapNode.node 0 (left.frequency + right.frequency) left right
      mergeLoop tie fuel (push heap2 merged)
    else .ok heap

/-- `mergeNodes()`.  Each iteration shrinks the heap by one node, so
`heap.length` iterations are enough (`mergeNodes_size`). -/
def mergeNodes (tie : List HeapNode → Nat) (heap : List HeapNode) :
    Except Fault (List HeapNode) :=
  mergeLoop tie heap.length heap

/-! ## Code table -/

/-- `makeCodesHelper(root, currentCode)` acting on `codes` and
`reverse_mapping`.  A `leaf` has null children, so on a `leaf` whose character
is `'\0'` both recursive calls return at once. -/
def makeCodesHelper : HeapNode → Bits → Table Byte Bits × Table Bits Byte →
    Table Byte Bits × Table Bits Byte
  | .leaf ch _, currentCode, t =>
    if ch ≠ 0 then (t.1.set ch currentCode, t.2.set currentCode ch) else t
  | .node ch _ l r, currentCode, t =>
    if ch ≠ 0 then (t.1.set ch currentCode, t.2.set currentCode ch)
    else makeCodesHelper r (currentCode ++ [true]) (makeCodesHelper l (currentCode ++ [false]) t)

/-- The assignments `codes[ch] = currentCode` that `makeCodesHelper(root,
currentCode)` performs, in the order it performs them. -/
def assigned : HeapNode → Bits → List (Byte × Bits)
  | .leaf ch _, currentCode => if ch ≠ 0 then [(ch, currentCode)] else []
  | .node ch _ l r, currentCode =>
    if ch ≠ 0 then [(ch, currentCode)]
    else assigned l (currentCode ++ [false]) ++ assigned r (currentCode ++ [true])

/-- `makeCodes()`. -/
def makeCodes (tie : List HeapNode → Nat) (s : State) : Except Fault State := do
  let root ← top tie s.heap
  let heap := pop tie s.heap
  let t := makeCodesHelper root [] (s.codes, s.reverse_mapping)
  pure ⟨t.1, t.2, heap⟩

/-- `codes[ch]` read as an rvalue: an absent key is inserted with the empty
string. -/
def codesAt (codes : Table Byte Bits) (ch : Byte) : Bits × Table Byte Bits :=
  match codes ch with
  | some c => (c, codes)
  | none => ([], codes.set ch [])

/-- `getEncodedText(text)`: the encoded text and the `codes` table it leaves. -/
def getEncodedText (text : List Byte) (codes : Table Byte Bits) : Bits × Table Byte Bits :=
  text.foldl (fun acc ch => (acc.1 ++ (codesAt acc.2 ch).1, (codesAt acc.2 ch).2)) ([], codes)

/-! ## Bit packing -/

/-- `bitset<8>(n).to_string()` for width 8: the low `w` bits of `n`, most
significant first. -/
def toBits : Nat → Nat → Bits
  | 0, _ => []
  | w + 1, n => toBits w (n / 2) ++ [decide (n % 2 = 1)]

/-- `bitset<8>(str).to_ulong()`: the number written by the bits, most
significant first. -/
def ofBits (bits : Bits) : Nat :=
  bits.foldl (fun acc b => 2 * acc + (if b then 1 else 0)) 0

/-- `padEncodedText(encodedText)`. -/
def padEncodedText (encodedText : Bits) : Bits :=
  let extraPadding := 8 - encodedText.length % 8
  let paddedText := encodedText ++ List.replicate extraPadding false
  let paddingInfo := toBits 8 extraPadding
  paddingInfo ++ paddedText

/-- `getByteArray(paddedEncodedText)`: one byte per `substr(i, 8)`,
`i = 0, 8, 16, ...` while `i < size()`. -/
def getByteArray (paddedEncodedText : Bits) : List Byte :=
  (List.range ((paddedEncodedText.length + 7) / 8)).map
    (fun j => Fin.ofNat (ofBits ((paddedEncodedText.drop (8 * j)).take 8)))

/-- The read loop of `decompress`: every byte becomes `bitset<8>(byte).to_string()`. -/
def bitString (bytes : List Byte) : Bits :=
  bytes.foldl (fun acc byte => acc ++ toBits 8 byte.val) []

/-- `removePadding(paddedEncodedText)`.  `substr(8)` throws when the string is
shorter than 8; `encodedText.size() - extraPadding` is computed in `size_t`
(64 bits) and `substr(0, n)` keeps at most `n` characters. -/
def removePadding (paddedEncodedText : Bits) : Except Fault Bits :=
  let paddingInfo := paddedEncodedText.take 8
  let extraPadding := ofBits paddingInfo
  if paddedEncodedText.length < 8 then .error .outOfRange
  else
    let encodedText := paddedEncodedText.drop 8
    .ok (encodedText.take ((encodedText.length + 2 ^ 64 - extraPadding) % 2 ^ 64))

/-! ## Decoding -/

/-- One iteration of the loop of `decodeText`, on `(currentCode, decodedText)`. -/
def decodeStep (reverse_mapping : Table Bits Byte) (st : Bits × List Byte) (bit : Bool) :
    Bits × List Byte :=
  let currentCode := st.1 ++ [bit]
  match reverse_mapping currentCode with
  | some ch => ([], st.2 ++ [ch])
  | none => (currentCode, st.2)

/-- The loop of `decodeText`: the final `(currentCode, decodedText)`. -/
def decodeLoop (reverse_mapping : Table Bits Byte) (encodedText : Bits) : Bits × List Byte :=
  encodedText.foldl (decodeStep reverse_mapping) ([], [])

/-- `decodeText(encodedText)`. -/
def decodeText (reverse_mapping : Table Bits Byte) (encodedText : Bits) : List Byte :=
  (decodeLoop reverse_mapping encodedText).2

/-! ## The two pipelines -/

/-- Lines 139-143 of `compress`: the object after `makeFrequencyDict`,
`makeHeap`, `mergeNodes` and `makeCodes`. -/
def buildTables (tie : List HeapNode → Nat) (s : State) (text : List Byte) :
    Except Fault State := do
  let frequency := makeFrequencyDict text []
  let heap := makeHeap frequency s.heap
  let heap ← mergeNodes tie heap
  makeCodes tie ⟨s.codes, s.reverse_mapping, heap⟩

/-- Lines 139-147 of `compress`: the bytes written to the output file and the
state the object is left in. -/
def compress (tie : List HeapNode → Nat) (s : State) (text : List Byte) :
    Except Fault (List Byte × State) := do
  let s1 ← buildTables tie s text
  let enc := getEncodedText text s1.codes
  let paddedEncodedText := padEncodedText enc.1
  let byteArray := getByteArray paddedEncodedText
  pure (byteArray, ⟨enc.2, s1.reverse_mapping, s1.heap⟩)

/-- Lines 170-178 of `decompress`: the text written to the output file. -/
def decompress (s : State) (bytes : List Byte) : Except Fault (List Byte) := do
  let encodedText ← removePadding (bitString bytes)
  pure (decodeText s.reverse_mapping encodedText)

/-- What `main` does with the bytes of the input file: `compress`, then
`decompress` on the same object. -/
def roundTrip (tie : List HeapNode → Nat) (text : List Byte) : Except Fault (List Byte) := do
  let r ← compress tie State.fresh text
  decompress r.2 r.1

/-- The corruption scenario: `compress`, drop the last byte of the compressed
buffer, then `decompress` on the same object. -/
def truncatedRoundTrip (tie : List HeapNode → Nat) (text : List Byte) :
    Except Fault (List Byte) := do
  let r ← compress tie State.fresh text
  decompress r.2 r.1.dropLast

/-- A tie-break: always the first candidate. -/
def firstTie : List HeapNode → Nat := fun _ => 0

/-- A tie-break: always the last candidate. -/
def lastTie : List HeapNode → Nat := fun h => (tops h).length - 1

/-! ## Weighted path length -/

/-- The leaves of a tree, left to right, as `(character, frequency)`. -/
def leaves : HeapNode → List (Byte × Nat)
  | .leaf ch f => [(ch, f)]
  | .node _ _ l r => leaves l ++ leaves r

/-- The leaves of all the trees of a heap. -/
def forestLeaves : List HeapNode → List (Byte × Nat)
  | [] => []
  | t :: ts => leaves t ++ forestLeaves ts

/-- The sum of the frequencies of the leaves of a tree. -/
def weight : HeapNode → Nat
  | .leaf _ f => f
  | .node _ _ l r => weight l + weight r

/-- Every internal node carries the sum of the frequencies of its two
children, as the nodes built by `mergeNodes` do. -/
def SumsOk : HeapNode → Prop
  | .leaf _ _ => True
  | .node _ f l r => f = l.frequency + r.frequency ∧ SumsOk l ∧ SumsOk r

/-- The sum over the leaves of frequency times depth, the root of the tree
being at depth `d`. -/
def wplAt : Nat → HeapNode → Nat
  | d, .leaf _ f => f * d
  | d, .node _ _ l r => wplAt (d + 1) l + wplAt (d + 1) r

/-- The weighted path length of a tree: the sum over its leaves of frequency
times depth. -/
def weightedPathLength (t : HeapNode) : Nat := wplAt 0 t

/-- The `(frequency, depth)` pairs of the leaves of a tree whose root is at
depth `d`. -/
def depths : Nat → HeapNode → List (Nat × Nat)
  | d, .leaf _ f => [(f, d)]
  | d, .node _ _ l r => depths (d + 1) l ++ depths (d + 1) r

/-- The cost of a list of `(frequency, length)` pairs: the sum of frequency
times length. -/
def cost (L : List (Nat × Nat)) : Nat := (L.map (fun x => x.1 * x.2)).sum

/-- The Kraft sum of a list of `(frequency, length)` pairs: the sum of
`2 ^ (-length)`. -/
def kraft (L : List (Nat × Nat)) : ℚ := (L.map (fun x => (1 / 2 : ℚ) ^ x.2)).sum

/-- The number of bits that a code `code` spends on a text with the frequency
table `frequency`. -/
def encodedLength (frequency : List (Byte × Nat)) (code : Byte → Bits) : Nat :=
  (frequency.map (fun p => p.2 * (code p.1).length)).sum

/-- The Kraft sum of a list of code words. -/
def kraftCodes (C : List Bits) : ℚ := (C.map (fun c => (1 / 2 : ℚ) ^ c.length)).sum

/-- The code words of `C` that start with the bit `b`, without that bit. -/
def tailsOf (b : Bool) (C : List Bits) : List Bits :=
  C.filterMap (fun c => match c with
    | [] => none
    | x :: t => if x = b then some t else none)

/-! ## Shapes and scenarios for the later properties -/

/-- The shape of the nodes that `mergeNodes` creates: the character is `'\0'`,
the frequency is the sum of the frequencies of the two children, and the left
child (taken out first) is no more frequent than the right one. -/
def MergeShape : HeapNode → Prop
  | .leaf _ _ => True
  | .node ch f l r =>
    ch = 0 ∧ f = l.frequency + r.frequency ∧ l.frequency ≤ r.frequency ∧
      MergeShape l ∧ MergeShape r

/-- Every frequency stored in the tree is in the range of a non-negative
`int`. -/
def InRange : HeapNode → Prop
  | .leaf _ f => f < 2 ^ 31
  | .node _ f l r => f < 2 ^ 31 ∧ InRange l ∧ InRange r

/-- Two calls of `compress` on one object: first on `textA`, then on `textB`.
The result is that of the second call. -/
def compressTwice (tie : List HeapNode → Nat) (textA textB : List Byte) :
    Except Fault (List Byte × State) := do
  let r ← compress tie State.fresh textA
  compress tie r.2 textB

/-- The calls `compress(textA)`, `compress(textB)` and then `decompress` of the
second output, all on one object. -/
def roundTripAfter (tie : List HeapNode → Nat) (textA textB : List Byte) :
    Except Fault (List Byte) := do
  let r ← compressTwice tie textA textB
  decompress r.2 r.1

/-- The last code that a list of assignments gives to the symbol `k`. -/
def lastCode (A : List (Byte × Bits)) (k : Byte) : Option Bits :=
  A.foldl (fun acc e => if k = e.1 then some e.2 else acc) none

/-- The last symbol that a list of assignments gives to the code `c`. -/
def lastSymbol (A : List (Byte × Bits)) (c : Bits) : Option Byte :=
  A.foldl (fun acc e => if c = e.2 then some e.1 else acc) none

/-- The concatenation of the codes of the symbols of a text. -/
def encodeWith (code : Byte → Bits) : List Byte → Bits
  | [] => []
  | ch :: rest => code ch ++ encodeWith code rest

/-! ## Frequency counting -/

theorem freqLookup_incr (ch b : Byte) (f : List (Byte × Nat)) :
    freqLookup (incr ch f) b =
      if b = ch then some ((freqLookup f b).getD 0 + 1) else freqLookup f b := by
  induction f with
  | nil =>
    by_cases h : b = ch
    · simp [incr, freqLookup, h]
    · have h2 : ¬ ch = b := fun e => h e.symm
      simp [incr, freqLookup, h, h2]
  | cons p rest ih =>
    obtain ⟨k, n⟩ := p
    unfold freqLookup at ih ⊢
    by_cases hk : k = ch
    · by_cases hb : b = ch
      · subst hk; subst hb
        simp [incr, List.find?_cons]
      · have hkb : ¬ ch = b := fun e => hb e.symm
        subst hk
        simp [incr, hb, List.find?_cons, hkb]
    · by_cases hkb : k = b
      · subst hkb
        simp [incr, hk, List.find?_cons]
      · simp [incr, hk, List.find?_cons, hkb, ih]

theorem sum_incr (ch : Byte) (f : List (Byte × Nat)) :
    ((incr ch f).map Prod.snd).sum = (f.map Prod.snd).sum + 1 := by
  induction f with
  | nil => simp [incr]
  | cons p rest ih =>
    obtain ⟨k, n⟩ := p
    by_cases hk : k = ch
    · simp [incr, hk]; omega
    · simp [incr, hk, ih]; omega

theorem keys_incr (ch : Byte) (f : List (Byte × Nat)) :
    (incr ch f).map Prod.fst = if ch ∈ f.map Prod.fst then f.map Prod.fst
      else f.map Prod.fst ++ [ch] := by
  induction f with
  | nil => simp [incr]
  | cons p rest ih =>
    obtain ⟨k, n⟩ := p
    by_cases hk : k = ch
    · simp [incr, hk]
    · have hk2 : ¬ ch = k := fun e => hk e.symm
      by_cases hm : ch ∈ rest.map Prod.fst
      · rw [if_pos hm] at ih
        have : ch ∈ ((k, n) :: rest).map Prod.fst := List.mem_cons_of_mem _ hm
        rw [if_pos this]
        simp only [incr, hk, if_false, List.map_cons, ih]
      · rw [if_neg hm] at ih
        have : ch ∉ ((k, n) :: rest).map Prod.fst := by
          simp only [List.map_cons, List.mem_cons, not_or]
          exact ⟨hk2, hm⟩
        rw [if_neg this]
        simp only [incr, hk, if_false, List.map_cons, ih, List.cons_append]

theorem nodup_incr (ch : Byte) (f : List (Byte × Nat)) (h : (f.map Prod.fst).Nodup) :
    ((incr ch f).map Prod.fst).Nodup := by
  rw [keys_incr]
  split
  · exact h
  · rename_i hm
    rw [List.nodup_append]
    refine ⟨h, List.nodup_singleton _, ?_⟩
    intro a ha hb
    simp only [List.mem_singleton] at hb
    subst hb
    exact hm ha

theorem freqLookup_makeFrequencyDict (text : List Byte) (f : List (Byte × Nat)) (b : Byte) :
    freqLookup (makeFrequencyDict text f) b =
      if b ∈ text then some ((freqLookup f b).getD 0 + text.count b) else freqLookup f b := by
  induction text generalizing f with
  | nil => simp [makeFrequencyDict]
  | cons ch rest ih =>
    have e : makeFrequencyDict (ch :: rest) f = makeFrequencyDict rest (incr ch f) := rfl
    rw [e, ih, freqLookup_incr]
    by_cases hb : b = ch
    · subst hb
      by_cases hr : b ∈ rest
      · simp [hr]; omega
      · simp [hr, List.count_eq_zero_of_not_mem hr]
    · have hb2 : ¬ ch = b := fun e => hb e.symm
      by_cases hr : b ∈ rest
      · simp [hr, hb, List.count_cons, hb2]
      · simp [hr, hb]

theorem sum_makeFrequencyDict (text : List Byte) (f : List (Byte × Nat)) :
    ((makeFrequencyDict text f).map Prod.snd).sum = (f.map Prod.snd).sum + text.length := by
  induction text generalizing f with
  | nil => simp [makeFrequencyDict]
  | cons ch rest ih =>
    have e : makeFrequencyDict (ch :: rest) f = makeFrequencyDict rest (incr ch f) := rfl
    rw [e, ih, sum_incr, List.length_cons]; omega

theorem nodup_makeFrequencyDict (text : List Byte) (f : List (Byte × Nat))
    (h : (f.map Prod.fst).Nodup) : ((makeFrequencyDict text f).map Prod.fst).Nodup := by
  induction text generalizing f with
  | nil => simpa [makeFrequencyDict] using h
  | cons ch rest ih =>
    have e : makeFrequencyDict (ch :: rest) f = makeFrequencyDict rest (incr ch f) := rfl
    rw [e]; exact ih _ (nodup_incr ch f h)

/-- C10: for a text of fewer than `2^31` bytes (the range of the `int`
counts): started on an empty table, `makeFrequencyDict` maps every byte `b` to
its number of occurrences when that is positive and has no entry for `b`
otherwise; no key is stored twice, the counts add up to the length of the
input, every count is below `2^31`, and the empty input gives the empty
table. -/
theorem makeFrequencyDict_spec (text : List Byte) (b : Byte) (hlen : text.length < 2 ^ 31) :
    freqLookup (makeFrequencyDict text []) b =
        (if 0 < text.count b then some (text.count b) else none)
      ∧ (0 = text.count b → ∀ p ∈ makeFrequencyDict text [], p.1 ≠ b)
      ∧ ((makeFrequencyDict text []).map Prod.fst).Nodup
      ∧ ((makeFrequencyDict text []).map Prod.snd).sum = text.length
      ∧ (∀ p ∈ makeFrequencyDict text [], p.2 < 2 ^ 31)
      ∧ makeFrequencyDict [] [] = [] := by
  have key : freqLookup (makeFrequencyDict text []) b =
      (if 0 < text.count b then some (text.count b) else none) := by
    rw [freqLookup_makeFrequencyDict]
    by_cases hb : b ∈ text
    · have : 0 < text.count b := List.count_pos_iff.mpr hb
      simp [hb, this, freqLookup]
    · have : text.count b = 0 := List.count_eq_zero_of_not_mem hb
      simp [hb, this, freqLookup]
  have hsum : ((makeFrequencyDict text []).map Prod.snd).sum = text.length := by
    simpa using sum_makeFrequencyDict text []
  refine ⟨key, ?_, nodup_makeFrequencyDict text [] (by simp), hsum, ?_, rfl⟩
  · intro h0 p hp hpb
    rw [if_neg (by omega)] at key
    unfold freqLookup at key
    simp only [Option.map_eq_none', List.find?_eq_none] at key
    exact key p hp (by simpa using hpb)
  · intro p hp
    have hle : p.2 ≤ ((makeFrequencyDict text []).map Prod.snd).sum :=
      List.single_le_sum (fun _ _ => Nat.zero_le _) _ (List.mem_map_of_mem _ hp)
    omega

/-- Witness for `makeFrequencyDict_spec`: the text `aaabbc` and the byte `a`. -/
theorem makeFrequencyDict_spec_witness :
    freqLookup (makeFrequencyDict [97, 97, 97, 98, 98, 99] []) 97 =
        (if 0 < ([97, 97, 97, 98, 98, 99] : List Byte).count 97
          then some (([97, 97, 97, 98, 98, 99] : List Byte).count 97) else none)
      ∧ (0 = ([97, 97, 97, 98, 98, 99] : List Byte).count 97 →
          ∀ p ∈ makeFrequencyDict [97, 97, 97, 98, 98, 99] [], p.1 ≠ 97)
      ∧ ((makeFrequencyDict [97, 97, 97, 98, 98, 99] []).map Prod.fst).Nodup
      ∧ ((makeFrequencyDict [97, 97, 97, 98, 98, 99] []).map Prod.snd).sum =
          ([97, 97, 97, 98, 98, 99] : List Byte).length
      ∧ (∀ p ∈ makeFrequencyDict [97, 97, 97, 98, 98, 99] [], p.2 < 2 ^ 31)
      ∧ makeFrequencyDict [] [] = [] :=
  makeFrequencyDict_spec [97, 97, 97, 98, 98, 99] 97 (by norm_num)

/-! ## Bit packing -/

theorem ofBits_append_singleton (l : Bits) (b : Bool) :
    ofBits (l ++ [b]) = 2 * ofBits l + (if b then 1 else 0) := by
  simp [ofBits, List.foldl_append]

theorem toBits_length (w n : Nat) : (toBits w n).length = w := by
  induction w generalizing n with
  | zero => rfl
  | succ w ih => simp [toBits, ih]

theorem ofBits_toBits (w n : Nat) : ofBits (toBits w n) = n % 2 ^ w := by
  induction w generalizing n with
  | zero => simp [toBits, ofBits, Nat.mod_one]
  | succ w ih =>
    rw [toBits, ofBits_append_singleton, ih, pow_succ]
    have h1 : n % (2 ^ w * 2) = 2 * (n / 2 % 2 ^ w) + n % 2 := by
      rw [Nat.mul_comm (2 ^ w) 2, Nat.mod_mul]; omega
    rw [h1]
    rcases Nat.mod_two_eq_zero_or_one n with h | h <;> simp [h]

theorem toBits_ofBits (l : Bits) : toBits l.length (ofBits l) = l := by
  induction l using List.reverseRecOn with
  | nil => rfl
  | append_singleton l b ih =>
    rw [List.length_append, List.length_singleton, toBits, ofBits_append_singleton]
    have h1 : (2 * ofBits l + (if b then 1 else 0)) / 2 = ofBits l := by
      cases b <;> simp
      omega
    have h2 : decide ((2 * ofBits l + (if b then 1 else 0)) % 2 = 1) = b := by
      cases b <;> simp
      omega
    rw [h1, h2, ih]

theorem ofBits_lt (l : Bits) : ofBits l < 2 ^ l.length := by
  have h := ofBits_toBits l.length (ofBits l)
  rw [toBits_ofBits] at h
  rw [h]
  exact Nat.mod_lt _ (by positivity)

theorem bitString_foldl (bytes : List Byte) (acc : Bits) :
    bytes.foldl (fun acc byte => acc ++ toBits 8 byte.val) acc = acc ++ bitString bytes := by
  induction bytes generalizing acc with
  | nil => simp [bitString]
  | cons b bs ih =>
    simp only [bitString, List.foldl_cons, List.nil_append]
    rw [ih, ih (toBits 8 b.val), List.append_assoc]

theorem bitString_cons (b : Byte) (bs : List Byte) :
    bitString (b :: bs) = toBits 8 b.val ++ bitString bs := by
  simp only [bitString, List.foldl_cons, List.nil_append]
  exact bitString_foldl bs _

theorem getByteArray_nil : getByteArray [] = [] := rfl

theorem getByteArray_append (chunk rest : Bits) (h : chunk.length = 8) :
    getByteArray (chunk ++ rest) = Fin.ofNat (ofBits chunk) :: getByteArray rest := by
  unfold getByteArray
  have hlen : ((chunk ++ rest).length + 7) / 8 = (rest.length + 7) / 8 + 1 := by
    rw [List.length_append, h]; omega
  rw [hlen, List.range_succ_eq_map, List.map_cons, List.map_map]
  congr 1
  · simp [List.take_append_of_le_length, h]
  · apply List.map_congr_left
    intro j _
    have : 8 * (j + 1) = chunk.length + 8 * j := by rw [h]; omega
    simp only [Function.comp, this, List.drop_append]

theorem bitString_getByteArray (n : Nat) (l : Bits) (h : l.length = 8 * n) :
    bitString (getByteArray l) = l := by
  induction n generalizing l with
  | zero =>
    have : l = [] := List.length_eq_zero.mp (by simpa using h)
    subst this; rfl
  | succ n ih =>
    have h8 : (l.take 8).length = 8 := by rw [List.length_take, h]; omega
    have hr : (l.drop 8).length = 8 * n := by rw [List.length_drop, h]; omega
    have hl : l = l.take 8 ++ l.drop 8 := (List.take_append_drop 8 l).symm
    rw [hl, getByteArray_append _ _ h8, bitString_cons, ih _ hr]
    congr 1
    have hlt : ofBits (l.take 8) < 256 := by
      have := ofBits_lt (l.take 8); rw [h8] at this; simpa using this
    have hv : (Fin.ofNat (ofBits (l.take 8)) : Fin 256).val = ofBits (l.take 8) := by
      show ofBits (l.take 8) % 256 = _
      exact Nat.mod_eq_of_lt hlt
    rw [hv]
    have := toBits_ofBits (l.take 8)
    rwa [h8] at this

theorem padEncodedText_length (bits : Bits) :
    (padEncodedText bits).length = 8 * (bits.length / 8 + 2) := by
  simp only [padEncodedText, List.length_append, toBits_length, List.length_replicate]
  omega

/-- C5: for every bit string (of a length a `std::string` can have), padding it
with `padEncodedText`, packing it with `getByteArray`, expanding the bytes to
8 bits each as `decompress` does and applying `removePadding` gives back the
bit string. -/
theorem padding_roundtrip (bits : Bits) (hlen : bits.length < 2 ^ 64) :
    removePadding (bitString (getByteArray (padEncodedText bits))) = .ok bits := by
  rw [bitString_getByteArray _ _ (padEncodedText_length bits)]
  have hp : padEncodedText bits =
      toBits 8 (8 - bits.length % 8) ++ (bits ++ List.replicate (8 - bits.length % 8) false) :=
    rfl
  have h8 : (toBits 8 (8 - bits.length % 8)).length = 8 := toBits_length _ _
  have htake : (padEncodedText bits).take 8 = toBits 8 (8 - bits.length % 8) := by
    rw [hp, List.take_append_of_le_length (by omega), List.take_of_length_le (by omega)]
  have hdrop : (padEncodedText bits).drop 8 =
      bits ++ List.replicate (8 - bits.length % 8) false := by
    rw [hp, List.drop_append_of_le_length (by omega), List.drop_of_length_le (by omega),
      List.nil_append]
  have hl : ¬ (padEncodedText bits).length < 8 := by
    rw [padEncodedText_length]; omega
  unfold removePadding
  simp only [hl, if_false, htake, hdrop, ofBits_toBits, List.length_append,
    List.length_replicate]
  have hmod : (8 - bits.length % 8) % 2 ^ 8 = 8 - bits.length % 8 :=
    Nat.mod_eq_of_lt (by norm_num; omega)
  rw [hmod]
  have hk : (bits.length + (8 - bits.length % 8) + 2 ^ 64 - (8 - bits.length % 8)) % 2 ^ 64
      = bits.length := by
    have : bits.length + (8 - bits.length % 8) + 2 ^ 64 - (8 - bits.length % 8)
        = bits.length + 2 ^ 64 := by omega
    rw [this, Nat.add_mod_right, Nat.mod_eq_of_lt hlen]
  rw [hk, List.take_left']
  rfl

/-- Witness for `padding_roundtrip` at the nine bits `000101011`. -/
theorem padding_roundtrip_witness :
    removePadding (bitString (getByteArray (padEncodedText
      [false, false, false, true, false, true, false, true, true]))) =
      .ok [false, false, false, true, false, true, false, true, true] :=
  padding_roundtrip _ (by norm_num)

/-! ## Priority queue -/

theorem mem_tops (heap : List HeapNode) (x : HeapNode) :
    x ∈ tops heap ↔ x ∈ heap ∧ ∀ y ∈ heap, x.frequency ≤ y.frequency := by
  simp [tops, HeapNode.lt]

theorem exists_least (heap : List HeapNode) (h : heap ≠ []) :
    ∃ x ∈ heap, ∀ y ∈ heap, x.frequency ≤ y.frequency := by
  induction heap with
  | nil => exact absurd rfl h
  | cons a rest ih =>
    by_cases hr : rest = []
    · subst hr
      exact ⟨a, by simp, by simp⟩
    · obtain ⟨x, hx, hmin⟩ := ih hr
      by_cases hax : a.frequency ≤ x.frequency
      · refine ⟨a, by simp, ?_⟩
        intro y hy
        rcases List.mem_cons.mp hy with e | e
        · rw [e]
        · exact le_trans hax (hmin y e)
      · refine ⟨x, List.mem_cons_of_mem _ hx, ?_⟩
        intro y hy
        rcases List.mem_cons.mp hy with e | e
        · rw [e]; omega
        · exact hmin y e

theorem tops_ne_nil (heap : List HeapNode) (h : heap ≠ []) : tops heap ≠ [] := by
  obtain ⟨x, hx, hmin⟩ := exists_least heap h
  exact List.ne_nil_of_mem ((mem_tops heap x).mpr ⟨hx, hmin⟩)

theorem top_nil (tie : List HeapNode → Nat) : top tie [] = .error .emptyHeapTop := rfl

theorem top_ok (tie : List HeapNode → Nat) (heap : List HeapNode) (h : heap ≠ []) :
    ∃ x, top tie heap = .ok x ∧ x ∈ tops heap := by
  have hpos : 0 < (tops heap).length := List.length_pos.mpr (tops_ne_nil heap h)
  have hlt : tie heap % (tops heap).length < (tops heap).length := Nat.mod_lt _ hpos
  refine ⟨(tops heap)[tie heap % (tops heap).length], ?_, List.getElem_mem _⟩
  unfold top
  rw [List.getElem?_eq_getElem hlt]

theorem top_mem_tops (tie : List HeapNode → Nat) (heap : List HeapNode) (x : HeapNode)
    (h : top tie heap = .ok x) : x ∈ tops heap := by
  unfold top at h
  split at h
  · rename_i y hy
    cases h
    exact List.getElem?_mem hy
  · cases h

theorem top_mem (tie : List HeapNode → Nat) (heap : List HeapNode) (x : HeapNode)
    (h : top tie heap = .ok x) : x ∈ heap :=
  ((mem_tops heap x).mp (top_mem_tops tie heap x h)).1

theorem top_least (tie : List HeapNode → Nat) (heap : List HeapNode) (x : HeapNode)
    (h : top tie heap = .ok x) : ∀ y ∈ heap, x.frequency ≤ y.frequency :=
  ((mem_tops heap x).mp (top_mem_tops tie heap x h)).2

theorem pop_eq (tie : List HeapNode → Nat) (heap : List HeapNode) (x : HeapNode)
    (h : top tie heap = .ok x) : pop tie heap = heap.erase x := by
  simp [pop, h]

theorem top_of_tops_singleton (tie : List HeapNode → Nat) (heap : List HeapNode)
    (x : HeapNode) (h : tops heap = [x]) : top tie heap = .ok x := by
  simp [top, h, Nat.mod_one]

theorem top_of_tops_pair (tie : List HeapNode → Nat) (heap : List HeapNode)
    (x y : HeapNode) (h : tops heap = [x, y]) :
    top tie heap = .ok x ∨ top tie heap = .ok y := by
  unfold top
  rw [h]
  rcases Nat.mod_two_eq_zero_or_one (tie heap) with e | e
  · left; simp [e]
  · right; simp [e]

theorem top_singleton (tie : List HeapNode → Nat) (x : HeapNode) : top tie [x] = .ok x :=
  top_of_tops_singleton tie [x] x (by simp [tops, HeapNode.lt])

theorem pop_singleton (tie : List HeapNode → Nat) (x : HeapNode) : pop tie [x] = [] := by
  rw [pop_eq tie [x] x (top_singleton tie x)]
  simp

theorem pop_length (tie : List HeapNode → Nat) (heap : List HeapNode) (x : HeapNode)
    (h : top tie heap = .ok x) : (pop tie heap).length = heap.length - 1 := by
  rw [pop_eq tie heap x h, List.length_erase_of_mem (top_mem tie heap x h)]

theorem pop_perm (tie : List HeapNode → Nat) (heap : List HeapNode) (x : HeapNode)
    (h : top tie heap = .ok x) : heap.Perm (x :: pop tie heap) := by
  rw [pop_eq tie heap x h]
  exact List.perm_cons_erase (top_mem tie heap x h)

theorem makeHeap_eq (frequency : List (Byte × Nat)) (heap : List HeapNode) :
    makeHeap frequency heap = heap ++ frequency.map (fun p => HeapNode.leaf p.1 p.2) := by
  induction frequency generalizing heap with
  | nil => simp [makeHeap]
  | cons p rest ih =>
    have e : makeHeap (p :: rest) heap = makeHeap rest (push heap (.leaf p.1 p.2)) := rfl
    rw [e, ih, push]
    simp

/-- One iteration of the loop of `mergeNodes` on a heap of at least two nodes:
the two nodes taken out and the heap that is left. -/
theorem mergeLoop_step (tie : List HeapNode → Nat) (fuel : Nat) (heap : List HeapNode)
    (h : 1 < heap.length) :
    ∃ left right, top tie heap = .ok left ∧ top tie (pop tie heap) = .ok right ∧
      mergeLoop tie (fuel + 1) heap = mergeLoop tie fuel
        (push (pop tie (pop tie heap))
          (.node 0 (left.frequency + right.frequency) left right)) ∧
      (push (pop tie (pop tie heap))
          (.node 0 (left.frequency + right.frequency) left right)).length = heap.length - 1 := by
  have hne : heap ≠ [] := by intro e; rw [e] at h; simp at h
  obtain ⟨left, hl, _⟩ := top_ok tie heap hne
  have hlen1 := pop_length tie heap left hl
  have hne1 : pop tie heap ≠ [] := by
    intro e; rw [e] at hlen1; simp at hlen1; omega
  obtain ⟨right, hr, _⟩ := top_ok tie (pop tie heap) hne1
  have hlen2 := pop_length tie (pop tie heap) right hr
  refine ⟨left, right, hl, hr, ?_, ?_⟩
  · rw [mergeLoop, if_pos h, hl]
    show (do
      let right ← top tie (pop tie heap)
      mergeLoop tie fuel (push (pop tie (pop tie heap))
        (.node 0 (left.frequency + right.frequency) left right))) = _
    rw [hr]
    rfl
  · simp only [push, List.length_append, List.length_singleton, hlen2, hlen1]
    omega

theorem mergeLoop_singleton (tie : List HeapNode → Nat) (fuel : Nat) (heap : List HeapNode)
    (hne : heap ≠ []) (hfuel : heap.length ≤ fuel + 1) :
    ∃ root, mergeLoop tie fuel heap = .ok [root] := by
  induction fuel generalizing heap with
  | zero =>
    match heap, hne, hfuel with
    | [x], _, _ => exact ⟨x, rfl⟩
    | _ :: _ :: _, _, h => simp at h
  | succ fuel ih =>
    by_cases h1 : 1 < heap.length
    · obtain ⟨left, right, _, _, hstep, hlen⟩ := mergeLoop_step tie fuel heap h1
      rw [hstep]
      apply ih
      · simp [push]
      · omega
    · match heap, hne, h1 with
      | [x], _, _ => exact ⟨x, by simp [mergeLoop]⟩
      | _ :: _ :: _, _, h => simp at h

/-- `mergeNodes` on a non-empty heap ends, without fault, with exactly one node
in the heap. -/
theorem mergeNodes_singleton (tie : List HeapNode → Nat) (heap : List HeapNode)
    (hne : heap ≠ []) : ∃ root, mergeNodes tie heap = .ok [root] :=
  mergeLoop_singleton tie heap.length heap hne (by omega)

theorem mergeNodes_nil (tie : List HeapNode → Nat) : mergeNodes tie [] = .ok [] := rfl

theorem makeCodes_singleton (tie : List HeapNode → Nat) (codes : Table Byte Bits)
    (rm : Table Bits Byte) (root : HeapNode) :
    makeCodes tie ⟨codes, rm, [root]⟩ =
      .ok ⟨(makeCodesHelper root [] (codes, rm)).1, (makeCodesHelper root [] (codes, rm)).2, []⟩ := by
  simp only [makeCodes, top_singleton, pop_singleton]
  rfl

theorem makeFrequencyDict_ne_nil (text : List Byte) (f : List (Byte × Nat))
    (h : text ≠ [] ∨ f ≠ []) : makeFrequencyDict text f ≠ [] := by
  induction text generalizing f with
  | nil =>
    rcases h with h | h
    · exact absurd rfl h
    · exact h
  | cons ch rest ih =>
    have e : makeFrequencyDict (ch :: rest) f = makeFrequencyDict rest (incr ch f) := rfl
    rw [e]
    apply ih
    right
    cases f with
    | nil => simp [incr]
    | cons p r =>
      obtain ⟨k, n⟩ := p
      simp only [incr]
      split <;> simp

/-- The tables of a fresh object after lines 139-143 on a non-empty input: the
loop of `mergeNodes` leaves one root and `makeCodes` walks it. -/
theorem buildTables_fresh (tie : List HeapNode → Nat) (text : List Byte) (h : text ≠ []) :
    ∃ root, mergeNodes tie (makeHeap (makeFrequencyDict text []) []) = .ok [root] ∧
      buildTables tie State.fresh text =
        .ok ⟨(makeCodesHelper root [] (Table.empty, Table.empty)).1,
             (makeCodesHelper root [] (Table.empty, Table.empty)).2, []⟩ := by
  have hne : makeHeap (makeFrequencyDict text []) [] ≠ [] := by
    rw [makeHeap_eq]
    simpa using makeFrequencyDict_ne_nil text [] (Or.inl h)
  obtain ⟨root, hroot⟩ := mergeNodes_singleton tie _ hne
  refine ⟨root, hroot, ?_⟩
  unfold buildTables
  simp only [State.fresh]
  rw [hroot]
  exact makeCodes_singleton tie _ _ root

/-! ## Empty and single-symbol inputs -/

/-- C8: on the empty input the loop of `mergeNodes` leaves the heap empty and
`makeCodes` reads `heap.top()` of that empty priority queue: the pipeline of
`compress` ends in undefined behaviour, neither in an error of its own nor in
a padded buffer. -/
theorem compress_empty (tie : List HeapNode → Nat) :
    mergeNodes tie (makeHeap (makeFrequencyDict [] []) State.fresh.heap) = .ok [] ∧
      makeCodes tie ⟨State.fresh.codes, State.fresh.reverse_mapping, []⟩ =
        .error .emptyHeapTop ∧
      compress tie State.fresh [] = .error .emptyHeapTop :=
  ⟨rfl, rfl, rfl⟩

theorem makeFrequencyDict_replicate (n m : Nat) (b : Byte) :
    makeFrequencyDict (List.replicate n b) [(b, m)] = [(b, m + n)] := by
  induction n generalizing m with
  | zero => rfl
  | succ n ih =>
    have e : makeFrequencyDict (List.replicate (n + 1) b) [(b, m)] =
        makeFrequencyDict (List.replicate n b) (incr b [(b, m)]) := rfl
    rw [e]
    simp only [incr, if_true]
    rw [ih]
    congr 2
    omega

theorem makeFrequencyDict_single (n : Nat) (b : Byte) :
    makeFrequencyDict (List.replicate (n + 1) b) [] = [(b, n + 1)] := by
  have e : makeFrequencyDict (List.replicate (n + 1) b) [] =
      makeFrequencyDict (List.replicate n b) [(b, 1)] := rfl
  rw [e, makeFrequencyDict_replicate, Nat.add_comm]

theorem buildTables_single (tie : List HeapNode → Nat) (n : Nat) (b : Byte) :
    buildTables tie State.fresh (List.replicate (n + 1) b) =
      .ok ⟨(makeCodesHelper (.leaf b (n + 1)) [] (Table.empty, Table.empty)).1,
           (makeCodesHelper (.leaf b (n + 1)) [] (Table.empty, Table.empty)).2, []⟩ := by
  unfold buildTables
  rw [makeFrequencyDict_single]
  have hm : mergeNodes tie (makeHeap [(b, n + 1)] State.fresh.heap) = .ok [.leaf b (n + 1)] := by
    simp [mergeNodes, makeHeap, push, State.fresh, mergeLoop]
  simp only [hm]
  exact makeCodes_singleton tie _ _ _

theorem getEncodedText_replicate_nil (n : Nat) (b : Byte) (codes : Table Byte Bits)
    (h : codes b = some [] ∨ codes b = none) :
    (getEncodedText (List.replicate n b) codes).1 = [] := by
  have key : ∀ (n : Nat) (codes : Table Byte Bits), (codes b = some [] ∨ codes b = none) →
      (List.foldl (fun (acc : Bits × Table Byte Bits) ch =>
        (acc.1 ++ (codesAt acc.2 ch).1, (codesAt acc.2 ch).2)) ([], codes)
        (List.replicate n b)).1 = [] := by
    intro n
    induction n with
    | zero => intro _ _; rfl
    | succ n ih =>
      intro codes h
      rw [List.replicate_succ, List.foldl_cons]
      rcases h with h | h
      · have e : codesAt codes b = ([], codes) := by simp [codesAt, h]
        rw [e]
        exact ih codes (Or.inl h)
      · have e : codesAt codes b = ([], codes.set b []) := by simp [codesAt, h]
        rw [e]
        exact ih _ (Or.inl (by simp [Table.set]))
  exact key n codes h

theorem codes_single (n : Nat) (b : Byte) :
    (makeCodesHelper (.leaf b (n + 1)) [] (Table.empty, Table.empty)).1 b =
      (if b ≠ 0 then some [] else none) := by
  by_cases hb : b = 0
  · simp [makeCodesHelper, hb, Table.empty]
  · simp [makeCodesHelper, hb, Table.set]

theorem encoded_single (n : Nat) (b : Byte) :
    (getEncodedText (List.replicate (n + 1) b)
      (makeCodesHelper (.leaf b (n + 1)) [] (Table.empty, Table.empty)).1).1 = [] := by
  apply getEncodedText_replicate_nil
  rw [codes_single]
  by_cases hb : b = 0
  · right; simp [hb]
  · left; simp [hb]

/-- C3: for an input of `n + 1` copies of one byte `b`, `makeCodes` does not give
`b` a one-bit code: it stores the empty string for `b` (and nothing at all when
`b` is the zero byte), and `getEncodedText` produces no bit, not `n + 1` bits. -/
theorem single_symbol_code (tie : List HeapNode → Nat) (n : Nat) (b : Byte) :
    ∃ st, buildTables tie State.fresh (List.replicate (n + 1) b) = .ok st ∧
      st.codes b = (if b ≠ 0 then some [] else none) ∧
      (getEncodedText (List.replicate (n + 1) b) st.codes).1 = [] :=
  ⟨_, buildTables_single tie n b, codes_single n b, encoded_single n b⟩

/-- C1: the round trip of `main` (`compress`, then `decompress` on the same
object) loses an input that repeats one byte: for `n + 1` copies of any byte it
returns the empty text. -/
theorem roundTrip_single_symbol (tie : List HeapNode → Nat) (n : Nat) (b : Byte) :
    roundTrip tie (List.replicate (n + 1) b) = .ok [] := by
  simp only [roundTrip, compress, buildTables_single tie n b]
  show decompress _ (getByteArray (padEncodedText
    (getEncodedText (List.replicate (n + 1) b) _).1)) = _
  rw [encoded_single]
  rfl

/-! ## Decoding -/

theorem decodeStep_foldl_none (rm : Table Bits Byte) (rest cur : Bits) (dec : List Byte)
    (h : ∀ k, 0 < k → k ≤ rest.length → rm (cur ++ rest.take k) = none) :
    rest.foldl (decodeStep rm) (cur, dec) = (cur ++ rest, dec) := by
  induction rest generalizing cur with
  | nil => simp
  | cons b rest ih =>
    have h1 : rm (cur ++ [b]) = none := by
      have := h 1 (by omega) (by simp)
      simpa using this
    have hs : decodeStep rm (cur, dec) b = (cur ++ [b], dec) := by
      simp [decodeStep, h1]
    rw [List.foldl_cons, hs, ih]
    · simp
    · intro k hk hk2
      have := h (k + 1) (by omega) (by simpa using hk2)
      simpa using this

theorem decodeLoop_append (rm : Table Bits Byte) (a b : Bits) :
    decodeLoop rm (a ++ b) = b.foldl (decodeStep rm) (decodeLoop rm a) := by
  simp [decodeLoop, List.foldl_append]

/-- C7 (as amended): `decodeText` has no failure: bits at the end of the stream
that complete no entry of `reverse_mapping` are left in `currentCode` and
dropped, and the symbols decoded before them are returned. -/
theorem decodeText_drops_leftover (rm : Table Bits Byte) (consumed rest : Bits)
    (hdone : (decodeLoop rm consumed).1 = [])
    (hrest : ∀ k, 0 < k → k ≤ rest.length → rm (rest.take k) = none) :
    decodeLoop rm (consumed ++ rest) = (rest, decodeText rm consumed) ∧
      decodeText rm (consumed ++ rest) = decodeText rm consumed := by
  have e : decodeLoop rm consumed = ([], decodeText rm consumed) := by
    rw [← hdone]; rfl
  have key : decodeLoop rm (consumed ++ rest) = (rest, decodeText rm consumed) := by
    rw [decodeLoop_append, e, decodeStep_foldl_none rm rest [] _ (by simpa using hrest)]
    simp
  exact ⟨key, by rw [decodeText, key]⟩

/-- Witness for `decodeText_drops_leftover`: the table `10 -> b` and the bits
`10` followed by the leftover `1`. -/
theorem decodeText_drops_leftover_witness :
    decodeLoop (Table.empty.set [true, false] (98 : Byte)) ([true, false] ++ [true]) =
        ([true], decodeText (Table.empty.set [true, false] (98 : Byte)) [true, false]) ∧
      decodeText (Table.empty.set [true, false] (98 : Byte)) ([true, false] ++ [true]) =
        decodeText (Table.empty.set [true, false] (98 : Byte)) [true, false] :=
  decodeText_drops_leftover _ [true, false] [true] (by decide) (by
    intro k h0 h1
    have hk : k = 1 := by simp at h1; omega
    subst hk
    decide)

/-- C7 (counterexample): with the table `10 -> b`, the bits `101` leave the
candidate `1` at the end of the stream, and `decodeText` returns `b`. -/
theorem decodeText_leftover_counterexample :
    (decodeLoop (Table.empty.set [true, false] (98 : Byte)) [true, false, true]).1 = [true] ∧
      (Table.empty.set [true, false] (98 : Byte)) [true] = none ∧
      decodeText (Table.empty.set [true, false] (98 : Byte)) [true, false, true] = [98] := by
  decide

/-! ## Truncated buffers -/

theorem bitString_append (a b : List Byte) :
    bitString (a ++ b) = bitString a ++ bitString b := by
  simp only [bitString, List.foldl_append]
  exact bitString_foldl b _

theorem bitString_length (bs : List Byte) : (bitString bs).length = 8 * bs.length := by
  induction bs with
  | nil => rfl
  | cons b bs ih =>
    rw [bitString_cons, List.length_append, toBits_length, ih, List.length_cons]; omega

theorem bitString_dropLast (bs : List Byte) :
    bitString bs.dropLast = (bitString bs).take (8 * (bs.length - 1)) := by
  by_cases h : bs = []
  · subst h; rfl
  · have e : bs = bs.dropLast ++ [bs.getLast h] := (List.dropLast_append_getLast h).symm
    have hl : (bitString bs.dropLast).length = 8 * (bs.length - 1) := by
      rw [bitString_length, List.length_dropLast]
    have e2 : bitString bs = bitString bs.dropLast ++ bitString [bs.getLast h] := by
      conv_lhs => rw [e, bitString_append]
    rw [e2, ← hl, List.take_left']
    rfl

theorem getByteArray_length (l : Bits) : (getByteArray l).length = (l.length + 7) / 8 := by
  simp [getByteArray]

/-- Unpacking a packed buffer without its last byte: `removePadding` does not
fail, and gives the logical bits without their last eight (none of them when
there are fewer than eight). -/
theorem removePadding_truncated (bits : Bits) (hlen : bits.length < 2 ^ 64) :
    removePadding (bitString (getByteArray (padEncodedText bits)).dropLast) =
      .ok (bits.take (bits.length - 8)) := by
  have hP := padEncodedText_length bits
  rw [bitString_dropLast, bitString_getByteArray _ _ hP, getByteArray_length, hP]
  have hn : 8 * ((8 * (bits.length / 8 + 2) + 7) / 8 - 1) = 8 + 8 * (bits.length / 8) := by
    omega
  rw [hn]
  have hp : padEncodedText bits =
      toBits 8 (8 - bits.length % 8) ++ (bits ++ List.replicate (8 - bits.length % 8) false) :=
    rfl
  have h8 : (toBits 8 (8 - bits.length % 8)).length = 8 := toBits_length _ _
  have hT : (padEncodedText bits).take (8 + 8 * (bits.length / 8)) =
      toBits 8 (8 - bits.length % 8) ++
        (bits ++ List.replicate (8 - bits.length % 8) false).take (8 * (bits.length / 8)) := by
    rw [hp]
    generalize toBits 8 (8 - bits.length % 8) = hd at h8 ⊢
    rw [← h8, List.take_append]
  rw [hT]
  set body := (bits ++ List.replicate (8 - bits.length % 8) false).take (8 * (bits.length / 8))
    with hbody
  have hbl : body.length = 8 * (bits.length / 8) := by
    rw [hbody, List.length_take, List.length_append, List.length_replicate]; omega
  have htake : (toBits 8 (8 - bits.length % 8) ++ body).take 8 =
      toBits 8 (8 - bits.length % 8) := by
    rw [List.take_append_of_le_length (by omega), List.take_of_length_le (by omega)]
  have hdrop : (toBits 8 (8 - bits.length % 8) ++ body).drop 8 = body := by
    rw [List.drop_append_of_le_length (by omega), List.drop_of_length_le (by omega),
      List.nil_append]
  have hl : ¬ (toBits 8 (8 - bits.length % 8) ++ body).length < 8 := by
    rw [List.length_append, h8]; omega
  unfold removePadding
  simp only [hl, if_false, htake, hdrop, ofBits_toBits, hbl]
  have hmod : (8 - bits.length % 8) % 2 ^ 8 = 8 - bits.length % 8 :=
    Nat.mod_eq_of_lt (by norm_num; omega)
  rw [hmod]
  congr 1
  by_cases hsmall : bits.length < 8
  · have h0 : bits.length / 8 = 0 := by omega
    have hb : body = [] := List.length_eq_zero.mp (by rw [hbl, h0])
    have h1 : bits.length - 8 = 0 := by omega
    rw [hb, h1]
    simp
  · have hk : (8 * (bits.length / 8) + 2 ^ 64 - (8 - bits.length % 8)) % 2 ^ 64 =
        bits.length - 8 := by
      have : 8 * (bits.length / 8) + 2 ^ 64 - (8 - bits.length % 8) =
          (bits.length - 8) + 2 ^ 64 := by omega
      rw [this, Nat.add_mod_right]
      exact Nat.mod_eq_of_lt (by omega)
    rw [hk, hbody, List.take_take]
    have hmin : min (bits.length - 8) (8 * (bits.length / 8)) = bits.length - 8 := by
      omega
    rw [hmin, List.take_append_of_le_length (by omega)]

/-- C6 (as amended): for a non-empty input, decoding the compressed buffer
without its last byte does not fail: it returns, with no error, what
`decodeText` makes of the logical bits without their last eight. -/
theorem truncation_silent (tie : List HeapNode → Nat) (text : List Byte) (h : text ≠ []) :
    ∃ st, buildTables tie State.fresh text = .ok st ∧
      ((getEncodedText text st.codes).1.length < 2 ^ 64 →
        truncatedRoundTrip tie text = .ok (decodeText st.reverse_mapping
          ((getEncodedText text st.codes).1.take
            ((getEncodedText text st.codes).1.length - 8)))) := by
  obtain ⟨root, _, hb⟩ := buildTables_fresh tie text h
  refine ⟨_, hb, ?_⟩
  intro hlen
  simp only [truncatedRoundTrip, compress, hb]
  show (do
    let encodedText ← removePadding (bitString (getByteArray (padEncodedText _)).dropLast)
    pure (decodeText _ encodedText)) = _
  rw [removePadding_truncated _ hlen]
  rfl

/-- Witness for `truncation_silent`: the nine bytes `ababababa`. -/
theorem truncation_silent_witness :
    ∃ st, buildTables firstTie State.fresh [97, 98, 97, 98, 97, 98, 97, 98, 97] = .ok st ∧
      ((getEncodedText [97, 98, 97, 98, 97, 98, 97, 98, 97] st.codes).1.length < 2 ^ 64 →
        truncatedRoundTrip firstTie [97, 98, 97, 98, 97, 98, 97, 98, 97] =
          .ok (decodeText st.reverse_mapping
            ((getEncodedText [97, 98, 97, 98, 97, 98, 97, 98, 97] st.codes).1.take
              ((getEncodedText [97, 98, 97, 98, 97, 98, 97, 98, 97] st.codes).1.length - 8)))) :=
  truncation_silent firstTie [97, 98, 97, 98, 97, 98, 97, 98, 97] (by decide)

/-- C6 (counterexample): the nine bytes `ababababa` (no two nodes of equal
frequency, so no tie) compress to the three bytes `7, 170, 128`; decoding the
first two of them returns the text `a`, with no failure. -/
theorem truncation_counterexample :
    (compress firstTie State.fresh [97, 98, 97, 98, 97, 98, 97, 98, 97]).map
        (fun r => r.1) = .ok [7, 170, 128] ∧
      truncatedRoundTrip firstTie [97, 98, 97, 98, 97, 98, 97, 98, 97] = .ok [97] := by
  decide

/-! ## Prefix-code validity -/

theorem makeCodesHelper_codes (t : HeapNode) (p : Bits) (tb : Table Byte Bits × Table Bits Byte)
    (a : Byte) (c : Bits) (h : (makeCodesHelper t p tb).1 a = some c) :
    tb.1 a = some c ∨ (a, c) ∈ assigned t p := by
  induction t generalizing p tb with
  | leaf ch f =>
    by_cases hch : ch = 0
    · left; simpa [makeCodesHelper, hch] using h
    · simp only [makeCodesHelper, ne_eq, hch, not_false_eq_true, if_true, Table.set] at h
      by_cases ha : a = ch
      · right
        rw [if_pos ha] at h
        simp only [Option.some.injEq] at h
        simp [assigned, hch, ha, h]
      · left; rwa [if_neg ha] at h
  | node ch f l r ihl ihr =>
    by_cases hch : ch = 0
    · simp only [makeCodesHelper, ne_eq, hch, not_true_eq_false, if_false] at h
      rcases ihr _ _ h with h1 | h1
      · rcases ihl _ _ h1 with h2 | h2
        · left; exact h2
        · right; simp [assigned, hch, h2]
      · right; simp [assigned, hch, h1]
    · simp only [makeCodesHelper, ne_eq, hch, not_false_eq_true, if_true, Table.set] at h
      by_cases ha : a = ch
      · right
        rw [if_pos ha] at h
        simp only [Option.some.injEq] at h
        simp [assigned, hch, ha, h]
      · left; rwa [if_neg ha] at h

theorem assigned_extends (t : HeapNode) (p : Bits) (x : Byte × Bits) (h : x ∈ assigned t p) :
    p <+: x.2 := by
  induction t generalizing p with
  | leaf ch f =>
    by_cases hch : ch = 0
    · simp [assigned, hch] at h
    · simp only [assigned, ne_eq, hch, not_false_eq_true, if_true, List.mem_singleton] at h
      rw [h]
  | node ch f l r ihl ihr =>
    by_cases hch : ch = 0
    · simp only [assigned, ne_eq, hch, not_true_eq_false, if_false, List.mem_append] at h
      rcases h with h | h
      · exact (List.prefix_append p [false]).trans (ihl _ h)
      · exact (List.prefix_append p [true]).trans (ihr _ h)
    · simp only [assigned, ne_eq, hch, not_false_eq_true, if_true, List.mem_singleton] at h
      rw [h]

theorem branches_incomparable (p c c' : Bits) (h0 : p ++ [false] <+: c)
    (h1 : p ++ [true] <+: c') : ¬ c <+: c' ∧ ¬ c' <+: c := by
  have key : ∀ d : Bits, p ++ [false] <+: d → p ++ [true] <+: d → False := by
    intro d hf ht
    have hle : (p ++ [false]).length ≤ (p ++ [true]).length := by simp
    have hpre := List.prefix_of_prefix_length_le hf ht hle
    have heq := hpre.eq_of_length (by simp)
    have := List.append_cancel_left heq
    simp at this
  exact ⟨fun h => key c' (h0.trans h) h1, fun h => key c h0 (h1.trans h)⟩

theorem assigned_pairwise (t : HeapNode) (p : Bits) :
    (assigned t p).Pairwise (fun x y => ¬ x.2 <+: y.2 ∧ ¬ y.2 <+: x.2) := by
  induction t generalizing p with
  | leaf ch f =>
    by_cases hch : ch = 0 <;> simp [assigned, hch]
  | node ch f l r ihl ihr =>
    by_cases hch : ch = 0
    · simp only [assigned, ne_eq, hch, not_true_eq_false, if_false]
      rw [List.pairwise_append]
      refine ⟨ihl _, ihr _, ?_⟩
      intro x hx y hy
      exact branches_incomparable p x.2 y.2 (assigned_extends l _ x hx) (assigned_extends r _ y hy)
    · simp [assigned, hch]

/-- In the table that `makeCodesHelper` fills from empty tables, the codes of
two different symbols are not prefixes of each other, whatever the tree. -/
theorem makeCodesHelper_prefix_free (root : HeapNode) (a b : Byte) (ca cb : Bits) (hab : a ≠ b)
    (ha : (makeCodesHelper root [] (Table.empty, Table.empty)).1 a = some ca)
    (hb : (makeCodesHelper root [] (Table.empty, Table.empty)).1 b = some cb) :
    ¬ ca <+: cb ∧ ¬ cb <+: ca := by
  have ha2 : (a, ca) ∈ assigned root [] := by
    rcases makeCodesHelper_codes root [] _ a ca ha with h | h
    · simp [Table.empty] at h
    · exact h
  have hb2 : (b, cb) ∈ assigned root [] := by
    rcases makeCodesHelper_codes root [] _ b cb hb with h | h
    · simp [Table.empty] at h
    · exact h
  have hsymm : Symmetric (fun x y : Byte × Bits => ¬ x.2 <+: y.2 ∧ ¬ y.2 <+: x.2) :=
    fun x y h => ⟨h.2, h.1⟩
  have hne : (a, ca) ≠ (b, cb) := fun e => hab (congrArg Prod.fst e)
  exact (assigned_pairwise root []).forall hsymm ha2 hb2 hne

/-- C4: for every non-empty input, lines 139-143 on a fresh object succeed, and
in the table `codes` they build the codes of two different symbols are not
prefixes of each other. -/
theorem codes_prefix_free (tie : List HeapNode → Nat) (text : List Byte) (h : text ≠ []) :
    ∃ st, buildTables tie State.fresh text = .ok st ∧
      ∀ a b ca cb, a ≠ b → st.codes a = some ca → st.codes b = some cb →
        ¬ ca <+: cb ∧ ¬ cb <+: ca := by
  obtain ⟨root, _, hb⟩ := buildTables_fresh tie text h
  refine ⟨_, hb, ?_⟩
  intro a b ca cb hab ha hb
  exact makeCodesHelper_prefix_free root a b ca cb hab ha hb

/-- Witness for `codes_prefix_free`: the input `aaabbc`. -/
theorem codes_prefix_free_witness :
    ∃ st, buildTables firstTie State.fresh [97, 97, 97, 98, 98, 99] = .ok st ∧
      ∀ a b ca cb, a ≠ b → st.codes a = some ca → st.codes b = some cb →
        ¬ ca <+: cb ∧ ¬ cb <+: ca :=
  codes_prefix_free firstTie [97, 97, 97, 98, 98, 99] (by decide)

/-! ## The scenario `aaabbc` -/

theorem mergeLoop_step_eq (tie : List HeapNode → Nat) (fuel : Nat) (heap : List HeapNode)
    (left right : HeapNode) (h : 1 < heap.length) (hl : top tie heap = .ok left)
    (hr : top tie (heap.erase left) = .ok right) :
    mergeLoop tie (fuel + 1) heap = mergeLoop tie fuel
      (push ((heap.erase left).erase right)
        (.node 0 (left.frequency + right.frequency) left right)) := by
  obtain ⟨l', r', hl', hr', hstep, _⟩ := mergeLoop_step tie fuel heap h
  have e1 : l' = left := by rw [hl] at hl'; cases hl'; rfl
  subst e1
  have hp1 : pop tie heap = heap.erase l' := pop_eq tie heap l' hl
  rw [hp1] at hr' hstep
  have e2 : r' = right := by rw [hr] at hr'; cases hr'; rfl
  subst e2
  rw [pop_eq tie _ r' hr] at hstep
  exact hstep

/-- The two trees that `mergeNodes` can build for `aaabbc`: `c` and `b` are
merged first, and the tie between `a` and the merged node goes either way. -/
theorem mergeNodes_aaabbc (tie : List HeapNode → Nat) :
    mergeNodes tie [.leaf 97 3, .leaf 98 2, .leaf 99 1] =
        .ok [.node 0 6 (.leaf 97 3) (.node 0 3 (.leaf 99 1) (.leaf 98 2))] ∨
      mergeNodes tie [.leaf 97 3, .leaf 98 2, .leaf 99 1] =
        .ok [.node 0 6 (.node 0 3 (.leaf 99 1) (.leaf 98 2)) (.leaf 97 3)] := by
  have s1 : mergeNodes tie [.leaf 97 3, .leaf 98 2, .leaf 99 1] =
      mergeLoop tie 2 [.leaf 97 3, .node 0 3 (.leaf 99 1) (.leaf 98 2)] :=
    mergeLoop_step_eq tie 2 _ (.leaf 99 1) (.leaf 98 2) (by decide)
      (top_of_tops_singleton tie _ _ (by decide))
      (top_of_tops_singleton tie _ _ (by decide))
  rw [s1]
  rcases top_of_tops_pair tie [.leaf 97 3, .node 0 3 (.leaf 99 1) (.leaf 98 2)]
      (.leaf 97 3) (.node 0 3 (.leaf 99 1) (.leaf 98 2)) (by decide) with h | h
  · left
    rw [mergeLoop_step_eq tie 1 _ _ (.node 0 3 (.leaf 99 1) (.leaf 98 2)) (by decide) h
      (top_of_tops_singleton tie _ _ (by decide))]
    rfl
  · right
    rw [mergeLoop_step_eq tie 1 _ _ (.leaf 97 3) (by decide) h
      (top_of_tops_singleton tie _ _ (by decide))]
    rfl

/-- C2: for the input `aaabbc` and every tie-break: the frequency table is
`a:3, b:2, c:1`; the code of `a` has one bit and the codes of `b` and `c` two
bits; the encoded text has 9 bits; the header records 7 padding bits; the output
has 3 bytes, the first of value 7; and `decompress` on the same object returns
`aaabbc`. -/
theorem scenario_aaabbc (tie : List HeapNode → Nat) :
    makeFrequencyDict [97, 97, 97, 98, 98, 99] [] = [(97, 3), (98, 2), (99, 1)] ∧
    ∃ st, buildTables tie State.fresh [97, 97, 97, 98, 98, 99] = .ok st ∧
      (st.codes 97).map List.length = some 1 ∧
      (st.codes 98).map List.length = some 2 ∧
      (st.codes 99).map List.length = some 2 ∧
      (getEncodedText [97, 97, 97, 98, 98, 99] st.codes).1.length = 9 ∧
      (padEncodedText (getEncodedText [97, 97, 97, 98, 98, 99] st.codes).1).take 8 =
        toBits 8 7 ∧
      ∃ out st2, compress tie State.fresh [97, 97, 97, 98, 98, 99] = .ok (out, st2) ∧
        out.length = 3 ∧ out.head? = some 7 ∧
        decompress st2 out = .ok [97, 97, 97, 98, 98, 99] := by
  refine ⟨rfl, ?_⟩
  have hb : ∀ root, mergeNodes tie [.leaf 97 3, .leaf 98 2, .leaf 99 1] = .ok [root] →
      buildTables tie State.fresh [97, 97, 97, 98, 98, 99] =
        .ok ⟨(makeCodesHelper root [] (Table.empty, Table.empty)).1,
             (makeCodesHelper root [] (Table.empty, Table.empty)).2, []⟩ := by
    intro root hroot
    unfold buildTables
    have e : makeHeap (makeFrequencyDict [97, 97, 97, 98, 98, 99] []) State.fresh.heap =
        [.leaf 97 3, .leaf 98 2, .leaf 99 1] := rfl
    simp only [e, hroot]
    exact makeCodes_singleton tie _ _ root
  rcases mergeNodes_aaabbc tie with h | h
  · have hbt := hb _ h
    refine ⟨_, hbt, by decide, by decide, by decide, by decide, by decide, ?_⟩
    simp only [compress, hbt]
    exact ⟨_, _, rfl, by decide, by decide, by decide⟩
  · have hbt := hb _ h
    refine ⟨_, hbt, by decide, by decide, by decide, by decide, by decide, ?_⟩
    simp only [compress, hbt]
    exact ⟨_, _, rfl, by decide, by decide, by decide⟩

/-! ## Costs and Kraft sums of length assignments -/

theorem cost_cons (x : Nat × Nat) (L : List (Nat × Nat)) :
    cost (x :: L) = x.1 * x.2 + cost L := by
  simp [cost]

theorem kraft_cons (x : Nat × Nat) (L : List (Nat × Nat)) :
    kraft (x :: L) = (1 / 2 : ℚ) ^ x.2 + kraft L := by
  simp [kraft]

theorem cost_append (L M : List (Nat × Nat)) : cost (L ++ M) = cost L + cost M := by
  simp [cost]

theorem kraft_append (L M : List (Nat × Nat)) : kraft (L ++ M) = kraft L + kraft M := by
  simp [kraft]

theorem cost_perm {L M : List (Nat × Nat)} (h : L.Perm M) : cost L = cost M := by
  unfold cost
  exact (h.map _).sum_eq

theorem kraft_perm {L M : List (Nat × Nat)} (h : L.Perm M) : kraft L = kraft M := by
  unfold kraft
  exact (h.map _).sum_eq

theorem kraft_nonneg (L : List (Nat × Nat)) : 0 ≤ kraft L := by
  induction L with
  | nil => simp [kraft]
  | cons x L ih =>
    rw [kraft_cons]
    have : (0 : ℚ) ≤ (1 / 2 : ℚ) ^ x.2 := by positivity
    linarith

/-- Scaled by `2 ^ E`, the Kraft sum of lengths that are at most `E` is a
natural number. -/
theorem kraft_scaled (X : List (Nat × Nat)) (E : Nat) (h : ∀ x ∈ X, x.2 ≤ E) :
    ∃ m : Nat, kraft X * 2 ^ E = (m : ℚ) := by
  induction X with
  | nil => exact ⟨0, by simp [kraft]⟩
  | cons x X ih =>
    obtain ⟨m, hm⟩ := ih (fun y hy => h y (List.mem_cons_of_mem _ hy))
    have hx : x.2 ≤ E := h x (List.mem_cons_self _ _)
    obtain ⟨k, hk⟩ := Nat.exists_eq_add_of_le hx
    refine ⟨2 ^ k + m, ?_⟩
    rw [kraft_cons, add_mul, hm, hk, pow_add, one_div_pow]
    have hpos : (0 : ℚ) < 2 ^ x.2 := by positivity
    push_cast
    field_simp

/-- When one length is strictly the greatest, it can be shortened by one bit
without the Kraft sum exceeding 1. -/
theorem kraft_shorten (w D : Nat) (X : List (Nat × Nat)) (hX : ∀ x ∈ X, x.2 ≤ D)
    (hk : kraft ((w, D + 1) :: X) ≤ 1) : kraft ((w, D) :: X) ≤ 1 := by
  obtain ⟨m, hm⟩ := kraft_scaled X D hX
  rw [kraft_cons] at hk ⊢
  simp only at hk ⊢
  have hpos : (0 : ℚ) < 2 ^ D := by positivity
  have hXe : kraft X = (m : ℚ) / 2 ^ D := by
    rw [eq_div_iff (ne_of_gt hpos)]; exact hm
  rw [hXe, one_div_pow] at hk ⊢
  have h1 : (1 : ℚ) + 2 * m ≤ 2 * 2 ^ D := by
    have h2 := mul_le_mul_of_nonneg_right hk (le_of_lt (by positivity : (0 : ℚ) < 2 * 2 ^ D))
    rw [pow_succ] at h2
    have h3 : ((1 : ℚ) / (2 ^ D * 2) + m / 2 ^ D) * (2 * 2 ^ D) = 1 + 2 * m := by
      field_simp
      ring
    rw [h3] at h2
    linarith
  have h4 : 1 + 2 * m ≤ 2 * 2 ^ D := by exact_mod_cast h1
  have h5 : m + 1 ≤ 2 ^ D := by
    generalize 2 ^ D = P at h4
    omega
  have h6 : ((m : ℚ) + 1) ≤ 2 ^ D := by exact_mod_cast h5
  rw [div_add_div_same, div_le_one hpos]
  linarith

theorem extract_weight (L : List (Nat × Nat)) (a : Nat) (W : List Nat)
    (h : (L.map Prod.fst).Perm (a :: W)) :
    ∃ d R, L.Perm ((a, d) :: R) ∧ (R.map Prod.fst).Perm W := by
  have ha : a ∈ L.map Prod.fst := h.symm.subset (List.mem_cons_self _ _)
  obtain ⟨x, hx, hxa⟩ := List.mem_map.mp ha
  have hxe : x = (a, x.2) := by rw [← hxa]
  obtain ⟨Lx, hp⟩ : ∃ Lx, L.Perm (x :: Lx) := ⟨_, List.perm_cons_erase hx⟩
  refine ⟨x.2, Lx, by rw [← hxe]; exact hp, ?_⟩
  have h2 : (a :: Lx.map Prod.fst).Perm (a :: W) := by
    have := (hp.map Prod.fst).symm.trans h
    simpa [hxa] using this
  exact h2.cons_inv

theorem exists_deepest (R : List (Nat × Nat)) (h : R ≠ []) :
    ∃ x ∈ R, ∀ y ∈ R, y.2 ≤ x.2 := by
  induction R with
  | nil => exact absurd rfl h
  | cons a rest ih =>
    by_cases hr : rest = []
    · subst hr
      exact ⟨a, by simp, by simp⟩
    · obtain ⟨x, hx, hmax⟩ := ih hr
      by_cases hax : x.2 ≤ a.2
      · refine ⟨a, by simp, ?_⟩
        intro y hy
        rcases List.mem_cons.mp hy with e | e
        · rw [e]
        · exact le_trans (hmax y e) hax
      · refine ⟨x, List.mem_cons_of_mem _ hx, ?_⟩
        intro y hy
        rcases List.mem_cons.mp hy with e | e
        · rw [e]; omega
        · exact hmax y e

/-- A least frequency can be moved to a greatest length without changing the
Kraft sum and without raising the cost. -/
theorem swap_up (a da : Nat) (R : List (Nat × Nat)) (ha : ∀ x ∈ R, a ≤ x.1) :
    ∃ da' R', (R'.map Prod.fst).Perm (R.map Prod.fst) ∧ (∀ x ∈ R', x.2 ≤ da') ∧
      kraft ((a, da') :: R') = kraft ((a, da) :: R) ∧
      cost ((a, da') :: R') ≤ cost ((a, da) :: R) ∧
      (∀ B, (∀ x ∈ R, x.2 ≤ B) → ∀ x ∈ R', x.2 ≤ B) := by
  by_cases hR : R = []
  · subst hR
    exact ⟨da, [], List.Perm.refl _, by simp, rfl, le_refl _, fun _ h => h⟩
  · obtain ⟨x, hx, hmax⟩ := exists_deepest R hR
    by_cases hxd : x.2 ≤ da
    · exact ⟨da, R, List.Perm.refl _, fun y hy => le_trans (hmax y hy) hxd, rfl, le_refl _,
        fun _ h => h⟩
    · obtain ⟨Rx, hp⟩ : ∃ Rx, R.Perm (x :: Rx) := ⟨_, List.perm_cons_erase hx⟩
      have hsub : ∀ y ∈ Rx, y ∈ R := fun y hy => hp.symm.subset (List.mem_cons_of_mem _ hy)
      refine ⟨x.2, (x.1, da) :: Rx, ?_, ?_, ?_, ?_, ?_⟩
      · simpa using (hp.map Prod.fst).symm
      · intro y hy
        rcases List.mem_cons.mp hy with e | e
        · rw [e]; simp only; omega
        · exact hmax y (hsub y e)
      · rw [kraft_cons, kraft_cons, kraft_cons, kraft_perm hp, kraft_cons]
        simp only
        ring
      · rw [cost_cons, cost_cons, cost_cons, cost_perm hp, cost_cons]
        simp only
        have h1 : a ≤ x.1 := ha x hx
        obtain ⟨u, hu⟩ := Nat.exists_eq_add_of_le h1
        obtain ⟨v, hv⟩ := Nat.exists_eq_add_of_le (Nat.le_of_lt (Nat.lt_of_not_le hxd))
        rw [hu, hv]
        nlinarith [Nat.zero_le (u * v)]
      · intro B hB y hy
        rcases List.mem_cons.mp hy with e | e
        · rw [e]; simp only
          have := hB x hx
          omega
        · exact hB y (hsub y e)

theorem equalise (a b db : Nat) (R : List (Nat × Nat)) (hR : ∀ x ∈ R, x.2 ≤ db) (n : Nat) :
    kraft ((a, db + n) :: (b, db) :: R) ≤ 1 → kraft ((a, db) :: (b, db) :: R) ≤ 1 := by
  induction n with
  | zero => exact fun h => h
  | succ n ih =>
    intro h
    apply ih
    apply kraft_shorten a (db + n) _ _ h
    intro x hx
    rcases List.mem_cons.mp hx with e | e
    · rw [e]; simp
    · exact le_trans (hR x e) (Nat.le_add_right _ _)

/-- Two frequencies at one common length `D + 1` can be merged into their sum at
length `D`: the Kraft sum is kept and the cost drops by the sum. -/
theorem merge_pair (a b D : Nat) (R : List (Nat × Nat)) :
    kraft ((a + b, D) :: R) = kraft ((a, D + 1) :: (b, D + 1) :: R) ∧
      cost ((a + b, D) :: R) + (a + b) = cost ((a, D + 1) :: (b, D + 1) :: R) := by
  constructor
  · rw [kraft_cons, kraft_cons, kraft_cons]
    simp only [pow_succ]
    ring
  · rw [cost_cons, cost_cons, cost_cons]
    simp only
    ring

/-- The exchange step of the optimality proof: whatever lengths a list `L`
gives to the frequencies `a :: b :: W`, with `a` and `b` least, some list gives
lengths to `(a + b) :: W` at a cost lower by at least `a + b`. -/
theorem exchange (L : List (Nat × Nat)) (a b : Nat) (W : List Nat)
    (hW : (L.map Prod.fst).Perm (a :: b :: W)) (ha : ∀ w ∈ W, a ≤ w) (hb : ∀ w ∈ W, b ≤ w)
    (hk : kraft L ≤ 1) :
    ∃ L', (L'.map Prod.fst).Perm ((a + b) :: W) ∧ kraft L' ≤ 1 ∧
      cost L' + (a + b) ≤ cost L := by
  obtain ⟨da, R1, hL1, hR1⟩ := extract_weight L a (b :: W) hW
  obtain ⟨db, R, hR1', hR⟩ := extract_weight R1 b W hR1
  have hL : L.Perm ((a, da) :: (b, db) :: R) := hL1.trans (hR1'.cons _)
  have hmemW : ∀ (Q : List (Nat × Nat)), (Q.map Prod.fst).Perm W → ∀ x ∈ Q, x.1 ∈ W :=
    fun Q hQ x hx => hQ.subset (List.mem_map_of_mem _ hx)
  obtain ⟨da', R', hR'w, hR'd, hk1, hc1, _⟩ :=
    swap_up a da R (fun x hx => ha _ (hmemW R hR x hx))
  have hR'W : (R'.map Prod.fst).Perm W := hR'w.trans hR
  obtain ⟨db', R'', hR''w, hR''d, hk2, hc2, hbound⟩ :=
    swap_up b db R' (fun x hx => hb _ (hmemW R' hR'W x hx))
  have hR''W : (R''.map Prod.fst).Perm W := hR''w.trans hR'W
  have hR''a : ∀ x ∈ R'', x.2 ≤ da' := hbound da' hR'd
  -- the Kraft sum and the cost of `(a, da') :: (b, db') :: R''`
  have hkL : kraft ((a, da') :: (b, db') :: R'') = kraft L := by
    rw [kraft_perm hL]
    rw [kraft_cons, kraft_cons] at hk1 hk2 ⊢
    rw [kraft_cons, kraft_cons]
    simp only at hk1 hk2 ⊢
    linarith
  have hcL : cost ((a, da') :: (b, db') :: R'') ≤ cost L := by
    rw [cost_perm hL]
    rw [cost_cons, cost_cons] at hc1 hc2 ⊢
    rw [cost_cons, cost_cons]
    simp only at hc1 hc2 ⊢
    omega
  -- both frequencies at the smaller of the two lengths
  have key : ∃ D, (∀ x ∈ R'', x.2 ≤ D) ∧ kraft ((a, D) :: (b, D) :: R'') ≤ 1 ∧
      cost ((a, D) :: (b, D) :: R'') ≤ cost L := by
    by_cases hle : db' ≤ da'
    · obtain ⟨n, hn⟩ := Nat.exists_eq_add_of_le hle
      refine ⟨db', hR''d, ?_, ?_⟩
      · apply equalise a b db' R'' hR''d n
        rw [← hn, hkL]; exact hk
      · refine le_trans ?_ hcL
        rw [cost_cons, cost_cons, cost_cons, cost_cons]
        simp only
        have := Nat.mul_le_mul_left a hle
        omega
    · have hle' : da' ≤ db' := Nat.le_of_lt (Nat.lt_of_not_le hle)
      obtain ⟨n, hn⟩ := Nat.exists_eq_add_of_le hle'
      refine ⟨da', hR''a, ?_, ?_⟩
      · have h1 : kraft ((b, da' + n) :: (a, da') :: R'') ≤ 1 := by
          rw [← hn, kraft_perm (List.Perm.swap _ _ _), hkL]; exact hk
        have h2 := equalise b a da' R'' hR''a n h1
        rwa [kraft_perm (List.Perm.swap _ _ _)] at h2
      · refine le_trans ?_ hcL
        rw [cost_cons, cost_cons, cost_cons, cost_cons]
        simp only
        have := Nat.mul_le_mul_left b hle'
        omega
  obtain ⟨D, _, hkD, hcD⟩ := key
  cases D with
  | zero =>
    exfalso
    rw [kraft_cons, kraft_cons] at hkD
    simp only [pow_zero] at hkD
    have := kraft_nonneg R''
    linarith
  | succ D =>
    obtain ⟨hmk, hmc⟩ := merge_pair a b D R''
    refine ⟨(a + b, D) :: R'', ?_, ?_, ?_⟩
    · simpa using hR''W
    · rw [hmk]; exact hkD
    · rw [hmc]; exact hcD

/-! ## Trees as length assignments -/

theorem wplAt_shift (d : Nat) (t : HeapNode) : wplAt d t = wplAt 0 t + d * weight t := by
  induction t generalizing d with
  | leaf c f => simp [wplAt, weight, Nat.mul_comm]
  | node c f l r ihl ihr =>
    simp only [wplAt, weight]
    rw [ihl (d + 1), ihr (d + 1), ihl (0 + 1), ihr (0 + 1)]
    ring

theorem frequency_eq_weight (t : HeapNode) (h : SumsOk t) : t.frequency = weight t := by
  induction t with
  | leaf c f => rfl
  | node c f l r ihl ihr =>
    obtain ⟨hf, hl, hr⟩ := h
    simp only [HeapNode.frequency, weight]
    rw [hf, ihl hl, ihr hr]

theorem weightedPathLength_node (c : Byte) (f : Nat) (l r : HeapNode) :
    weightedPathLength (.node c f l r) =
      weightedPathLength l + weightedPathLength r + (weight l + weight r) := by
  simp only [weightedPathLength, wplAt]
  rw [wplAt_shift (0 + 1) l, wplAt_shift (0 + 1) r]
  ring

theorem cost_depths (d : Nat) (t : HeapNode) : cost (depths d t) = wplAt d t := by
  induction t generalizing d with
  | leaf c f => simp [depths, wplAt, cost]
  | node c f l r ihl ihr => simp only [depths, wplAt, cost_append, ihl, ihr]

theorem kraft_depths (d : Nat) (t : HeapNode) : kraft (depths d t) = (1 / 2 : ℚ) ^ d := by
  induction t generalizing d with
  | leaf c f => simp [depths, kraft]
  | node c f l r ihl ihr =>
    simp only [depths, kraft_append, ihl, ihr, pow_succ]
    ring

theorem depths_weights (d : Nat) (t : HeapNode) :
    (depths d t).map Prod.fst = (leaves t).map Prod.snd := by
  induction t generalizing d with
  | leaf c f => rfl
  | node c f l r ihl ihr => simp only [depths, leaves, List.map_append, ihl, ihr]

theorem forestLeaves_append (h k : List HeapNode) :
    forestLeaves (h ++ k) = forestLeaves h ++ forestLeaves k := by
  induction h with
  | nil => rfl
  | cons t ts ih =>
    show leaves t ++ forestLeaves (ts ++ k) = (leaves t ++ forestLeaves ts) ++ forestLeaves k
    rw [ih, List.append_assoc]

theorem forestLeaves_perm {h k : List HeapNode} (p : h.Perm k) :
    (forestLeaves h).Perm (forestLeaves k) := by
  induction p with
  | nil => exact List.Perm.refl _
  | cons x _ ih => exact List.Perm.append_left _ ih
  | swap x y l =>
    simp only [forestLeaves]
    rw [← List.append_assoc, ← List.append_assoc]
    exact List.Perm.append_right _ List.perm_append_comm
  | trans _ _ ih1 ih2 => exact ih1.trans ih2

/-- What one iteration of the loop of `mergeNodes` does to a heap of at least
two nodes: `left` is a least node of the heap, `right` a least node of the
rest, and the merged node is pushed onto what is left. -/
theorem mergeLoop_step_spec (tie : List HeapNode → Nat) (fuel : Nat) (heap : List HeapNode)
    (h : 1 < heap.length) :
    ∃ left right rest, heap.Perm (left :: right :: rest) ∧
      (∀ y ∈ right :: rest, left.frequency ≤ y.frequency) ∧
      (∀ y ∈ rest, right.frequency ≤ y.frequency) ∧
      mergeLoop tie (fuel + 1) heap = mergeLoop tie fuel
        (rest ++ [.node 0 (left.frequency + right.frequency) left right]) ∧
      rest.length + 2 = heap.length := by
  obtain ⟨left, right, hl, hr, hstep, _⟩ := mergeLoop_step tie fuel heap h
  have p1 := pop_perm tie heap left hl
  have p2 := pop_perm tie (pop tie heap) right hr
  have hperm : heap.Perm (left :: right :: pop tie (pop tie heap)) := p1.trans (p2.cons _)
  refine ⟨left, right, pop tie (pop tie heap), hperm, ?_, ?_, hstep, ?_⟩
  · intro y hy
    exact top_least tie heap left hl y (hperm.symm.subset (List.mem_cons_of_mem _ hy))
  · intro y hy
    exact top_least tie _ right hr y (p2.symm.subset (List.mem_cons_of_mem _ hy))
  · have := hperm.length_eq
    simp only [List.length_cons] at this
    omega

theorem mergeLoop_small (tie : List HeapNode → Nat) (fuel : Nat) (heap : List HeapNode)
    (h : ¬ 1 < heap.length) : mergeLoop tie fuel heap = .ok heap := by
  cases fuel with
  | zero => rfl
  | succ n => simp [mergeLoop, h]

/-! ## Optimality of the merge loop -/

/-- The tree that the loop of `mergeNodes` builds from a heap costs no more
than the trees of the heap plus any assignment of lengths, of Kraft sum at most
1, to the frequencies of the roots of the heap. -/
theorem mergeLoop_optimal (tie : List HeapNode → Nat) (fuel : Nat) :
    ∀ (heap : List HeapNode) (root : HeapNode), (∀ t ∈ heap, SumsOk t) →
      mergeLoop tie fuel heap = .ok [root] →
      ∀ L : List (Nat × Nat), (L.map Prod.fst).Perm (heap.map HeapNode.frequency) →
        kraft L ≤ 1 →
        weightedPathLength root ≤ (heap.map weightedPathLength).sum + cost L := by
  induction fuel with
  | zero =>
    intro heap root _ hm L _ _
    have e : heap = [root] := by
      have : Except.ok heap = Except.ok [root] := hm
      exact Except.ok.inj this
    subst e
    simp
  | succ fuel ih =>
    intro heap root hok hm L hL hk
    by_cases h1 : 1 < heap.length
    · obtain ⟨left, right, rest, hperm, hleft, hright, hstep, _⟩ :=
        mergeLoop_step_spec tie fuel heap h1
      rw [hstep] at hm
      have hokl : SumsOk left := hok _ (hperm.symm.subset (by simp))
      have hokr : SumsOk right := hok _ (hperm.symm.subset (by simp))
      have hokrest : ∀ t ∈ rest, SumsOk t := fun t ht =>
        hok _ (hperm.symm.subset (by simp [ht]))
      have hW : (L.map Prod.fst).Perm
          (left.frequency :: right.frequency :: rest.map HeapNode.frequency) := by
        simpa using hL.trans (hperm.map HeapNode.frequency)
      obtain ⟨L', hL', hk', hc'⟩ := exchange L left.frequency right.frequency
        (rest.map HeapNode.frequency) hW
        (fun w hw => by
          obtain ⟨y, hy, rfl⟩ := List.mem_map.mp hw
          exact hleft y (List.mem_cons_of_mem _ hy))
        (fun w hw => by
          obtain ⟨y, hy, rfl⟩ := List.mem_map.mp hw
          exact hright y hy)
        hk
      have hok' : ∀ t ∈ rest ++ [HeapNode.node 0 (left.frequency + right.frequency) left right],
          SumsOk t := by
        intro t ht
        rcases List.mem_append.mp ht with h | h
        · exact hokrest t h
        · rw [List.mem_singleton.mp h]
          exact ⟨rfl, hokl, hokr⟩
      have hL'' : (L'.map Prod.fst).Perm
          ((rest ++ [HeapNode.node 0 (left.frequency + right.frequency) left right]).map
            HeapNode.frequency) := by
        rw [List.map_append]
        refine hL'.trans ?_
        simpa [HeapNode.frequency] using
          (List.perm_append_comm :
            ([left.frequency + right.frequency] ++ rest.map HeapNode.frequency).Perm _)
      have hih := ih _ root hok' hm L' hL'' hk'
      rw [List.map_append, List.sum_append] at hih
      simp only [List.map_cons, List.map_nil, List.sum_cons, List.sum_nil,
        weightedPathLength_node, Nat.add_zero] at hih
      rw [← frequency_eq_weight left hokl, ← frequency_eq_weight right hokr] at hih
      have hsum : (heap.map weightedPathLength).sum =
          weightedPathLength left + (weightedPathLength right +
            (rest.map weightedPathLength).sum) := by
        rw [(hperm.map weightedPathLength).sum_eq]
        simp
      rw [hsum]
      omega
    · rw [mergeLoop_small tie _ heap h1] at hm
      have e : heap = [root] := Except.ok.inj hm
      subst e
      simp

/-- The loop of `mergeNodes` keeps the leaves of the heap, and the sums in the
internal nodes. -/
theorem mergeLoop_leaves (tie : List HeapNode → Nat) (fuel : Nat) :
    ∀ (heap : List HeapNode) (root : HeapNode), (∀ t ∈ heap, SumsOk t) →
      mergeLoop tie fuel heap = .ok [root] →
      (leaves root).Perm (forestLeaves heap) ∧ SumsOk root := by
  induction fuel with
  | zero =>
    intro heap root hok hm
    have e : heap = [root] := Except.ok.inj hm
    subst e
    exact ⟨by simp [forestLeaves], hok _ (by simp)⟩
  | succ fuel ih =>
    intro heap root hok hm
    by_cases h1 : 1 < heap.length
    · obtain ⟨left, right, rest, hperm, _, _, hstep, _⟩ :=
        mergeLoop_step_spec tie fuel heap h1
      rw [hstep] at hm
      have hok' : ∀ t ∈ rest ++ [HeapNode.node 0 (left.frequency + right.frequency) left right],
          SumsOk t := by
        intro t ht
        rcases List.mem_append.mp ht with h | h
        · exact hok _ (hperm.symm.subset (by simp [h]))
        · rw [List.mem_singleton.mp h]
          exact ⟨rfl, hok _ (hperm.symm.subset (by simp)), hok _ (hperm.symm.subset (by simp))⟩
      obtain ⟨hp, hs⟩ := ih _ root hok' hm
      refine ⟨hp.trans ?_, hs⟩
      refine List.Perm.trans ?_ (forestLeaves_perm hperm).symm
      rw [forestLeaves_append]
      simp only [forestLeaves, leaves, List.append_nil]
      refine List.perm_append_comm.trans ?_
      rw [List.append_assoc]
    · rw [mergeLoop_small tie _ heap h1] at hm
      have e : heap = [root] := Except.ok.inj hm
      subst e
      exact ⟨by simp [forestLeaves], hok _ (by simp)⟩

/-! ## Kraft's inequality for prefix codes -/

theorem kraftCodes_cons (c : Bits) (C : List Bits) :
    kraftCodes (c :: C) = (1 / 2 : ℚ) ^ c.length + kraftCodes C := by
  simp [kraftCodes]

theorem kraftCodes_split (C : List Bits) (h : [] ∉ C) :
    kraftCodes C = 1 / 2 * (kraftCodes (tailsOf false C) + kraftCodes (tailsOf true C)) := by
  induction C with
  | nil => simp [kraftCodes, tailsOf]
  | cons c C ih =>
    have hC : [] ∉ C := fun hm => h (List.mem_cons_of_mem _ hm)
    rw [kraftCodes_cons, ih hC]
    cases c with
    | nil => exact absurd (List.mem_cons_self _ _) h
    | cons x t =>
      cases x
      · have e0 : tailsOf false ((false :: t) :: C) = t :: tailsOf false C := by
          simp [tailsOf]
        have e1 : tailsOf true ((false :: t) :: C) = tailsOf true C := by
          simp [tailsOf]
        rw [e0, e1, kraftCodes_cons, List.length_cons, pow_succ]
        ring
      · have e0 : tailsOf false ((true :: t) :: C) = tailsOf false C := by
          simp [tailsOf]
        have e1 : tailsOf true ((true :: t) :: C) = t :: tailsOf true C := by
          simp [tailsOf]
        rw [e0, e1, kraftCodes_cons, List.length_cons, pow_succ]
        ring

theorem mem_tailsOf (b : Bool) (C : List Bits) (t : Bits) :
    t ∈ tailsOf b C ↔ (b :: t) ∈ C := by
  induction C with
  | nil => simp [tailsOf]
  | cons c C ih =>
    unfold tailsOf at ih ⊢
    cases c with
    | nil => simp [List.filterMap_cons, ih]
    | cons x s =>
      by_cases hx : x = b
      · subst hx
        simp [List.filterMap_cons, ih]
      · have hx2 : ¬ b = x := fun e => hx e.symm
        simp [List.filterMap_cons, hx, hx2, ih]

theorem tailsOf_pairwise (b : Bool) (C : List Bits)
    (h : C.Pairwise (fun x y => ¬ x <+: y ∧ ¬ y <+: x)) :
    (tailsOf b C).Pairwise (fun x y => ¬ x <+: y ∧ ¬ y <+: x) := by
  unfold tailsOf
  refine h.filterMap _ ?_
  intro c c' hcc t ht t' ht'
  cases c with
  | nil => simp at ht
  | cons x s =>
    cases c' with
    | nil => simp at ht'
    | cons x' s' =>
      by_cases hx : x = b
      · by_cases hx' : x' = b
        · simp only [hx, hx', if_true, Option.mem_def, Option.some.injEq] at ht ht'
          subst hx; subst hx'; subst ht; subst ht'
          constructor
          · intro hp
            exact hcc.1 ((List.prefix_cons_inj _).mpr hp)
          · intro hp
            exact hcc.2 ((List.prefix_cons_inj _).mpr hp)
        · simp [hx'] at ht'
      · simp [hx] at ht

theorem pairwise_nil_mem (C : List Bits)
    (h : C.Pairwise (fun x y => ¬ x <+: y ∧ ¬ y <+: x)) (hm : [] ∈ C) : C = [[]] := by
  cases C with
  | nil => simp at hm
  | cons c rest =>
    rw [List.pairwise_cons] at h
    cases rest with
    | nil => simpa using hm
    | cons d rest' =>
      exfalso
      rcases List.mem_cons.mp hm with e | e
      · have := (h.1 d (List.mem_cons_self _ _)).1
        rw [← e] at this
        exact this (List.nil_prefix)
      · have := (h.1 [] e).2
        exact this (List.nil_prefix)

/-- Kraft's inequality: the Kraft sum of code words none of which is a prefix of
another is at most 1. -/
theorem kraft_inequality (n : Nat) :
    ∀ C : List Bits, (∀ c ∈ C, c.length ≤ n) →
      C.Pairwise (fun x y => ¬ x <+: y ∧ ¬ y <+: x) → kraftCodes C ≤ 1 := by
  induction n with
  | zero =>
    intro C hlen hpw
    by_cases hm : [] ∈ C
    · rw [pairwise_nil_mem C hpw hm]; simp [kraftCodes]
    · have : C = [] := by
        cases C with
        | nil => rfl
        | cons c rest =>
          exfalso
          have hc := hlen c (List.mem_cons_self _ _)
          have : c = [] := List.length_eq_zero.mp (Nat.le_zero.mp hc)
          exact hm (this ▸ List.mem_cons_self _ _)
      rw [this]; simp [kraftCodes]
  | succ n ih =>
    intro C hlen hpw
    by_cases hm : [] ∈ C
    · rw [pairwise_nil_mem C hpw hm]; simp [kraftCodes]
    · rw [kraftCodes_split C hm]
      have hb : ∀ b, kraftCodes (tailsOf b C) ≤ 1 := by
        intro b
        apply ih _ _ (tailsOf_pairwise b C hpw)
        intro t ht
        have := hlen _ ((mem_tailsOf b C t).mp ht)
        simpa using this
      have h0 := hb false
      have h1 := hb true
      linarith

/-! ## Minimum redundancy -/

theorem makeHeap_fresh (frequency : List (Byte × Nat)) :
    makeHeap frequency [] = frequency.map (fun p => HeapNode.leaf p.1 p.2) := by
  rw [makeHeap_eq, List.nil_append]

theorem forestLeaves_makeHeap (frequency : List (Byte × Nat)) :
    forestLeaves (frequency.map (fun p => HeapNode.leaf p.1 p.2)) = frequency := by
  induction frequency with
  | nil => rfl
  | cons p rest ih =>
    simp only [List.map_cons, forestLeaves, leaves, ih]
    rfl

theorem wpl_makeHeap (frequency : List (Byte × Nat)) :
    ((frequency.map (fun p => HeapNode.leaf p.1 p.2)).map weightedPathLength).sum = 0 := by
  induction frequency with
  | nil => rfl
  | cons p rest ih =>
    simp only [List.map_cons, List.sum_cons, ih]
    simp [weightedPathLength, wplAt]

theorem frequency_makeHeap (frequency : List (Byte × Nat)) :
    (frequency.map (fun p => HeapNode.leaf p.1 p.2)).map HeapNode.frequency =
      frequency.map Prod.snd := by
  rw [List.map_map]
  rfl

/-- The bits a prefix code spends are the cost of a length assignment of Kraft
sum at most 1. -/
theorem code_lengths (frequency : List (Byte × Nat)) (code : Byte → Bits)
    (hnd : (frequency.map Prod.fst).Nodup)
    (hpf : ∀ a ∈ frequency.map Prod.fst, ∀ b ∈ frequency.map Prod.fst, a ≠ b →
      ¬ code a <+: code b) :
    ∃ L : List (Nat × Nat), L.map Prod.fst = frequency.map Prod.snd ∧ kraft L ≤ 1 ∧
      cost L = encodedLength frequency code := by
  refine ⟨frequency.map (fun p => (p.2, (code p.1).length)), ?_, ?_, ?_⟩
  · rw [List.map_map]; rfl
  · have hk : kraft (frequency.map (fun p => (p.2, (code p.1).length))) =
        kraftCodes (frequency.map (fun p => code p.1)) := by
      simp only [kraft, kraftCodes, List.map_map]
      rfl
    rw [hk]
    obtain ⟨n, hn⟩ : ∃ n, ∀ c ∈ frequency.map (fun p => code p.1), c.length ≤ n := by
      refine ⟨((frequency.map (fun p => code p.1)).map List.length).sum, ?_⟩
      intro c hc
      exact List.single_le_sum (fun _ _ => Nat.zero_le _) _ (List.mem_map_of_mem _ hc)
    apply kraft_inequality n _ hn
    rw [List.pairwise_map]
    have hnd2 : frequency.Pairwise (fun p q => p.1 ≠ q.1) := by
      have := hnd
      rwa [List.Nodup, List.pairwise_map] at this
    refine hnd2.imp_of_mem ?_
    intro p q hp hq hne
    have hp1 : p.1 ∈ frequency.map Prod.fst := List.mem_map_of_mem _ hp
    have hq1 : q.1 ∈ frequency.map Prod.fst := List.mem_map_of_mem _ hq
    exact ⟨hpf _ hp1 _ hq1 hne, hpf _ hq1 _ hp1 (Ne.symm hne)⟩
  · simp only [cost, encodedLength, List.map_map]
    rfl

theorem weight_eq_sum (t : HeapNode) : weight t = ((leaves t).map Prod.snd).sum := by
  induction t with
  | leaf c f => simp [weight, leaves]
  | node c f l r ihl ihr => simp [weight, leaves, ihl, ihr]

/-- In a tree whose internal nodes carry the sums of their children, every
frequency is at most that of the root: when the root is in the range of `int`,
so is every node, and no sum computed for the tree overflows. -/
theorem inRange_of_sums (t : HeapNode) (hs : SumsOk t) (h : t.frequency < 2 ^ 31) :
    InRange t := by
  induction t with
  | leaf c f => exact h
  | node c f l r ihl ihr =>
    obtain ⟨hf, hl, hr⟩ := hs
    simp only [HeapNode.frequency] at h
    exact ⟨h, ihl hl (by omega), ihr hr (by omega)⟩

theorem root_frequency (root : HeapNode) (frequency : List (Byte × Nat)) (hs : SumsOk root)
    (hlv : (leaves root).Perm frequency) :
    root.frequency = (frequency.map Prod.snd).sum := by
  rw [frequency_eq_weight root hs, weight_eq_sum]
  exact (hlv.map Prod.snd).sum_eq

/-- C9: for every non-empty frequency table whose counts add up to less than
`2^31` (so that no sum of main.cpp:49 leaves the range of `int`) and every
tie-break, `makeHeap` followed by `mergeNodes` ends with one tree whose leaves
are the entries of the table, in which every frequency is below `2^31`, and
whose weighted path length is least among all trees with these leaves; and when
the symbols of the table are distinct, no code on these symbols in which no code
word is a prefix of another encodes the text in fewer bits. -/
theorem mergeNodes_minimum (tie : List HeapNode → Nat) (frequency : List (Byte × Nat))
    (hne : frequency ≠ []) (hsum : (frequency.map Prod.snd).sum < 2 ^ 31) :
    ∃ root, mergeNodes tie (makeHeap frequency []) = .ok [root] ∧
      (leaves root).Perm frequency ∧ InRange root ∧
      (∀ t : HeapNode, (leaves t).Perm frequency →
        weightedPathLength root ≤ weightedPathLength t) ∧
      ((frequency.map Prod.fst).Nodup → ∀ code : Byte → Bits,
        (∀ a ∈ frequency.map Prod.fst, ∀ b ∈ frequency.map Prod.fst, a ≠ b →
          ¬ code a <+: code b) →
        weightedPathLength root ≤ encodedLength frequency code) := by
  have hheap : makeHeap frequency [] ≠ [] := by
    rw [makeHeap_fresh]; simpa using hne
  obtain ⟨root, hroot⟩ := mergeNodes_singleton tie _ hheap
  have hok : ∀ t ∈ makeHeap frequency [], SumsOk t := by
    rw [makeHeap_fresh]
    intro t ht
    obtain ⟨p, _, rfl⟩ := List.mem_map.mp ht
    trivial
  have hopt := mergeLoop_optimal tie _ _ root hok hroot
  rw [makeHeap_fresh, wpl_makeHeap, frequency_makeHeap] at hopt
  simp only [Nat.zero_add] at hopt
  obtain ⟨hlv, hs⟩ := mergeLoop_leaves tie _ _ root hok hroot
  rw [makeHeap_fresh, forestLeaves_makeHeap] at hlv
  have hrange : InRange root :=
    inRange_of_sums root hs (by rw [root_frequency root frequency hs hlv]; exact hsum)
  refine ⟨root, hroot, hlv, hrange, ?_, ?_⟩
  · intro t ht
    have h1 := hopt (depths 0 t)
      (by rw [depths_weights]; exact ht.map Prod.snd)
      (by rw [kraft_depths]; simp)
    rwa [cost_depths] at h1
  · intro hnd code hpf
    obtain ⟨L, hL, hk, hc⟩ := code_lengths frequency code hnd hpf
    have h1 := hopt L (by rw [hL]) hk
    rwa [hc] at h1

/-- Witness for `mergeNodes_minimum`: the frequency table of `aaabbc`. -/
theorem mergeNodes_minimum_witness :
    ∃ root, mergeNodes firstTie (makeHeap [(97, 3), (98, 2), (99, 1)] []) = .ok [root] ∧
      (leaves root).Perm [(97, 3), (98, 2), (99, 1)] ∧ InRange root ∧
      (∀ t : HeapNode, (leaves t).Perm [(97, 3), (98, 2), (99, 1)] →
        weightedPathLength root ≤ weightedPathLength t) ∧
      ((([(97, 3), (98, 2), (99, 1)] : List (Byte × Nat)).map Prod.fst).Nodup →
        ∀ code : Byte → Bits,
        (∀ a ∈ ([(97, 3), (98, 2), (99, 1)] : List (Byte × Nat)).map Prod.fst,
          ∀ b ∈ ([(97, 3), (98, 2), (99, 1)] : List (Byte × Nat)).map Prod.fst, a ≠ b →
          ¬ code a <+: code b) →
        weightedPathLength root ≤ encodedLength [(97, 3), (98, 2), (99, 1)] code) :=
  mergeNodes_minimum firstTie [(97, 3), (98, 2), (99, 1)] (by decide) (by norm_num)

/-! ## Output layout -/

theorem getByteArray_getElem (l : Bits) (j : Nat) (h : j < (l.length + 7) / 8) :
    (getByteArray l)[j]? = some (Fin.ofNat (ofBits ((l.drop (8 * j)).take 8))) := by
  unfold getByteArray
  rw [List.getElem?_map, List.getElem?_range h]
  rfl

theorem toBits_byte (chunk : Bits) (h : chunk.length = 8) :
    toBits 8 (Fin.ofNat (ofBits chunk) : Fin 256).val = chunk := by
  have hlt : ofBits chunk < 256 := by
    have := ofBits_lt chunk; rw [h] at this; simpa using this
  have hv : (Fin.ofNat (ofBits chunk) : Fin 256).val = ofBits chunk := by
    show ofBits chunk % 256 = _
    exact Nat.mod_eq_of_lt hlt
  rw [hv]
  have := toBits_ofBits chunk
  rwa [h] at this

/-- C11: for a bit string of length `L`, `padEncodedText` uses the pad count
`p = 8 - L % 8`, which lies between 1 and 8 and is 8 when `L` is a multiple of
8; its result is the 8 bits of `p`, then the bits, then `p` zero bits, of a total
length that is a multiple of 8; `getByteArray` yields `L / 8 + 2` bytes, the
first of value `p`, and byte `j` holds the bits `8 j .. 8 j + 7`, most
significant first. -/
theorem padEncodedText_layout (bits : Bits) :
    1 ≤ 8 - bits.length % 8 ∧ 8 - bits.length % 8 ≤ 8 ∧
      (bits.length % 8 = 0 → 8 - bits.length % 8 = 8) ∧
      padEncodedText bits =
        toBits 8 (8 - bits.length % 8) ++ bits ++
          List.replicate (8 - bits.length % 8) false ∧
      (padEncodedText bits).length % 8 = 0 ∧
      (getByteArray (padEncodedText bits)).length = bits.length / 8 + 2 ∧
      (getByteArray (padEncodedText bits)).head?.map Fin.val = some (8 - bits.length % 8) ∧
      (∀ j, j < bits.length / 8 + 2 →
        ((getByteArray (padEncodedText bits))[j]?).map (fun b => toBits 8 b.val) =
          some (((padEncodedText bits).drop (8 * j)).take 8)) ∧
      bitString (getByteArray (padEncodedText bits)) = padEncodedText bits := by
  have hP := padEncodedText_length bits
  have hn : ((padEncodedText bits).length + 7) / 8 = bits.length / 8 + 2 := by
    rw [hP]; omega
  have hbyte : ∀ j, j < bits.length / 8 + 2 →
      ((getByteArray (padEncodedText bits))[j]?).map (fun b => toBits 8 b.val) =
        some (((padEncodedText bits).drop (8 * j)).take 8) := by
    intro j hj
    rw [getByteArray_getElem _ j (by rw [hn]; exact hj)]
    simp only [Option.map_some']
    rw [toBits_byte]
    rw [List.length_take, List.length_drop, hP]
    omega
  refine ⟨by omega, by omega, fun h => by omega, ?_, ?_, ?_, ?_, hbyte,
    bitString_getByteArray _ _ hP⟩
  · simp [padEncodedText]
  · rw [hP]; omega
  · rw [getByteArray_length, hn]
  · have h0 := hbyte 0 (by omega)
    rw [List.head?_eq_getElem?]
    cases hg : (getByteArray (padEncodedText bits))[0]? with
    | none => rw [hg] at h0; simp at h0
    | some b =>
      rw [hg] at h0
      simp only [Option.map_some', Option.some.injEq, Nat.mul_zero, List.drop_zero] at h0
      have h1 : (padEncodedText bits).take 8 = toBits 8 (8 - bits.length % 8) := by
        simp only [padEncodedText]
        rw [List.take_append_of_le_length (by rw [toBits_length]),
          List.take_of_length_le (by rw [toBits_length])]
      rw [h1] at h0
      have h2 := congrArg ofBits h0
      rw [ofBits_toBits, ofBits_toBits] at h2
      simp only [Option.map_some', Option.some.injEq]
      have hb : b.val < 2 ^ 8 := b.isLt
      rw [Nat.mod_eq_of_lt hb, Nat.mod_eq_of_lt (by norm_num; omega)] at h2
      exact h2

/-! ## Corrupt padding byte -/

/-- C15 (as amended): when the header byte announces more padding bits than
the payload has, `removePadding` does not fail: it returns all the bits of the
payload. -/
theorem removePadding_oversized (header : Byte) (payload : List Byte)
    (h : 8 * payload.length < header.val) :
    removePadding (bitString (header :: payload)) = .ok (bitString payload) := by
  have h8 : (toBits 8 header.val).length = 8 := toBits_length _ _
  have hb : header.val < 2 ^ 8 := header.isLt
  have hlen := bitString_length payload
  rw [bitString_cons]
  have htake : (toBits 8 header.val ++ bitString payload).take 8 = toBits 8 header.val := by
    rw [List.take_append_of_le_length (by omega), List.take_of_length_le (by omega)]
  have hdrop : (toBits 8 header.val ++ bitString payload).drop 8 = bitString payload := by
    rw [List.drop_append_of_le_length (by omega), List.drop_of_length_le (by omega),
      List.nil_append]
  have hl : ¬ (toBits 8 header.val ++ bitString payload).length < 8 := by
    rw [List.length_append, h8]; omega
  unfold removePadding
  simp only [hl, if_false, htake, hdrop, ofBits_toBits, Nat.mod_eq_of_lt hb, hlen]
  congr 1
  apply List.take_of_length_le
  rw [hlen]
  have hlt : 8 * payload.length + 2 ^ 64 - header.val < 2 ^ 64 := by omega
  rw [Nat.mod_eq_of_lt hlt]
  norm_num at hb ⊢
  omega

/-- Witness for `removePadding_oversized`: the header 9 before one payload
byte. -/
theorem removePadding_oversized_witness :
    removePadding (bitString [9, 170]) = .ok (bitString [170]) :=
  removePadding_oversized 9 [170] (by decide)

/-- C15 (counterexample): the buffer `9, 170` announces 9 padding bits for a
payload of 8 bits, and `removePadding` returns the 8 bits `10101010`. -/
theorem removePadding_counterexample :
    8 * [(170 : Byte)].length < (9 : Byte).val ∧
      removePadding (bitString [9, 170]) =
        .ok [true, false, true, false, true, false, true, false] := by
  decide

/-! ## The code table of `aaabbc` -/

theorem buildTables_aaabbc (tie : List HeapNode → Nat) :
    buildTables tie State.fresh [97, 97, 97, 98, 98, 99] =
        .ok ⟨(makeCodesHelper (.node 0 6 (.leaf 97 3) (.node 0 3 (.leaf 99 1) (.leaf 98 2))) []
              (Table.empty, Table.empty)).1,
             (makeCodesHelper (.node 0 6 (.leaf 97 3) (.node 0 3 (.leaf 99 1) (.leaf 98 2))) []
              (Table.empty, Table.empty)).2, []⟩ ∨
      buildTables tie State.fresh [97, 97, 97, 98, 98, 99] =
        .ok ⟨(makeCodesHelper (.node 0 6 (.node 0 3 (.leaf 99 1) (.leaf 98 2)) (.leaf 97 3)) []
              (Table.empty, Table.empty)).1,
             (makeCodesHelper (.node 0 6 (.node 0 3 (.leaf 99 1) (.leaf 98 2)) (.leaf 97 3)) []
              (Table.empty, Table.empty)).2, []⟩ := by
  have hb : ∀ root, mergeNodes tie [.leaf 97 3, .leaf 98 2, .leaf 99 1] = .ok [root] →
      buildTables tie State.fresh [97, 97, 97, 98, 98, 99] =
        .ok ⟨(makeCodesHelper root [] (Table.empty, Table.empty)).1,
             (makeCodesHelper root [] (Table.empty, Table.empty)).2, []⟩ := by
    intro root hroot
    unfold buildTables
    have e : makeHeap (makeFrequencyDict [97, 97, 97, 98, 98, 99] []) State.fresh.heap =
        [.leaf 97 3, .leaf 98 2, .leaf 99 1] := rfl
    simp only [e, hroot]
    exact makeCodes_singleton tie _ _ root
  rcases mergeNodes_aaabbc tie with h | h
  · exact Or.inl (hb _ h)
  · exact Or.inr (hb _ h)

/-- C18 (as amended): for the input `aaabbc`, `c` is taken out of the heap
first and becomes the left child, so the code of `c` ends in `0` and that of `b`
in `1`: the table is `a -> 0, c -> 10, b -> 11` with the encoded text
`000111110`, or, when the tie between `a` and the merged node goes the other
way, `c -> 00, b -> 01, a -> 1` with the encoded text `111010100`; no other byte
has an entry. -/
theorem codes_aaabbc (tie : List HeapNode → Nat) :
    ∃ st, buildTables tie State.fresh [97, 97, 97, 98, 98, 99] = .ok st ∧
      (∀ k : Byte, k ≠ 97 → k ≠ 98 → k ≠ 99 → st.codes k = none) ∧
      ((st.codes 97 = some [false] ∧ st.codes 99 = some [true, false] ∧
          st.codes 98 = some [true, true] ∧
          (getEncodedText [97, 97, 97, 98, 98, 99] st.codes).1 =
            [false, false, false, true, true, true, true, true, false]) ∨
        (st.codes 97 = some [true] ∧ st.codes 99 = some [false, false] ∧
          st.codes 98 = some [false, true] ∧
          (getEncodedText [97, 97, 97, 98, 98, 99] st.codes).1 =
            [true, true, true, false, true, false, true, false, false])) := by
  have hnone : ∀ (root : HeapNode), (∀ x ∈ assigned root [], x.1 = 97 ∨ x.1 = 98 ∨ x.1 = 99) →
      ∀ k : Byte, k ≠ 97 → k ≠ 98 → k ≠ 99 →
        (makeCodesHelper root [] (Table.empty, Table.empty)).1 k = none := by
    intro root hroot k h1 h2 h3
    cases hc : (makeCodesHelper root [] (Table.empty, Table.empty)).1 k with
    | none => rfl
    | some c =>
      exfalso
      rcases makeCodesHelper_codes root [] _ k c hc with h | h
      · simp [Table.empty] at h
      · rcases hroot _ h with e | e | e
        · exact h1 e
        · exact h2 e
        · exact h3 e
  rcases buildTables_aaabbc tie with h | h
  · exact ⟨_, h,
      hnone (.node 0 6 (.leaf 97 3) (.node 0 3 (.leaf 99 1) (.leaf 98 2))) (by decide),
      Or.inl (by decide)⟩
  · exact ⟨_, h,
      hnone (.node 0 6 (.node 0 3 (.leaf 99 1) (.leaf 98 2)) (.leaf 97 3)) (by decide),
      Or.inr (by decide)⟩

/-- C18 (counterexample): whichever way the tie goes (`firstTie` takes `a`
first, `lastTie` the merged node), `b` does not get the code `10` nor `c` the
code `11`, and the encoded text is not `000101011`. -/
theorem codes_aaabbc_counterexample :
    (buildTables firstTie State.fresh [97, 97, 97, 98, 98, 99]).map
        (fun st => st.codes 98) = .ok (some [true, true]) ∧
      (buildTables firstTie State.fresh [97, 97, 97, 98, 98, 99]).map
        (fun st => st.codes 99) = .ok (some [true, false]) ∧
      (buildTables firstTie State.fresh [97, 97, 97, 98, 98, 99]).map
        (fun st => (getEncodedText [97, 97, 97, 98, 98, 99] st.codes).1) =
        .ok [false, false, false, true, true, true, true, true, false] ∧
      (buildTables lastTie State.fresh [97, 97, 97, 98, 98, 99]).map
        (fun st => st.codes 98) = .ok (some [false, true]) ∧
      (buildTables lastTie State.fresh [97, 97, 97, 98, 98, 99]).map
        (fun st => st.codes 99) = .ok (some [false, false]) ∧
      (buildTables lastTie State.fresh [97, 97, 97, 98, 98, 99]).map
        (fun st => (getEncodedText [97, 97, 97, 98, 98, 99] st.codes).1) =
        .ok [true, true, true, false, true, false, true, false, false] := by
  decide

/-! ## The merge loop, iteration by iteration -/

theorem mergeLoop_length (tie : List HeapNode → Nat) (fuel : Nat) :
    ∀ heap : List HeapNode, heap ≠ [] →
      ∃ h', mergeLoop tie fuel heap = .ok h' ∧
        h'.length = heap.length - min fuel (heap.length - 1) := by
  induction fuel with
  | zero => intro heap _; exact ⟨heap, rfl, by simp⟩
  | succ fuel ih =>
    intro heap hne
    by_cases h1 : 1 < heap.length
    · obtain ⟨left, right, _, _, hstep, hlen⟩ := mergeLoop_step tie fuel heap h1
      obtain ⟨h', hh, hl⟩ := ih _ (by simp [push] :
        push (pop tie (pop tie heap))
          (.node 0 (left.frequency + right.frequency) left right) ≠ [])
      refine ⟨h', by rw [hstep]; exact hh, ?_⟩
      rw [hl, hlen]
      omega
    · refine ⟨heap, mergeLoop_small tie _ heap h1, ?_⟩
      have : 0 < heap.length := List.length_pos.mpr hne
      omega

theorem mergeLoop_more_fuel (tie : List HeapNode → Nat) (fuel : Nat) :
    ∀ (heap h' : List HeapNode), mergeLoop tie fuel heap = .ok h' → h'.length ≤ 1 →
      mergeLoop tie (fuel + 1) heap = .ok h' := by
  induction fuel with
  | zero =>
    intro heap h' hm hl
    have e : heap = h' := Except.ok.inj hm
    subst e
    exact mergeLoop_small tie _ heap (by omega)
  | succ fuel ih =>
    intro heap h' hm hl
    by_cases h1 : 1 < heap.length
    · obtain ⟨left, right, hl1, hr1, hstep, _⟩ := mergeLoop_step tie fuel heap h1
      rw [hstep] at hm
      have h2 := ih _ h' hm hl
      rw [pop_eq tie heap left hl1] at hr1
      rw [mergeLoop_step_eq tie (fuel + 1) heap left right h1 hl1 hr1]
      rw [pop_eq tie heap left hl1, pop_eq tie _ right hr1] at h2
      exact h2
    · rw [mergeLoop_small tie _ heap h1] at hm ⊢
      exact hm

theorem mergeLoop_shape (tie : List HeapNode → Nat) (fuel : Nat) :
    ∀ (heap : List HeapNode) (root : HeapNode), (∀ t ∈ heap, MergeShape t) →
      mergeLoop tie fuel heap = .ok [root] → MergeShape root := by
  induction fuel with
  | zero =>
    intro heap root hok hm
    have e : heap = [root] := Except.ok.inj hm
    subst e
    exact hok _ (by simp)
  | succ fuel ih =>
    intro heap root hok hm
    by_cases h1 : 1 < heap.length
    · obtain ⟨left, right, rest, hperm, hleft, _, hstep, _⟩ :=
        mergeLoop_step_spec tie fuel heap h1
      rw [hstep] at hm
      apply ih _ root _ hm
      intro t ht
      rcases List.mem_append.mp ht with h | h
      · exact hok _ (hperm.symm.subset (by simp [h]))
      · rw [List.mem_singleton.mp h]
        exact ⟨rfl, rfl, hleft right (by simp), hok _ (hperm.symm.subset (by simp)),
          hok _ (hperm.symm.subset (by simp))⟩
    · rw [mergeLoop_small tie _ heap h1] at hm
      have e : heap = [root] := Except.ok.inj hm
      subst e
      exact hok _ (by simp)

theorem makeHeap_leaf (frequency : List (Byte × Nat)) :
    ∀ t ∈ makeHeap frequency [], ∃ c f, t = HeapNode.leaf c f := by
  rw [makeHeap_fresh]
  intro t ht
  obtain ⟨p, _, rfl⟩ := List.mem_map.mp ht
  exact ⟨p.1, p.2, rfl⟩

/-- The root that `makeHeap` and `mergeNodes` build from a non-empty frequency
table, with what the loop keeps: the leaves, the sums and the shape of the
merged nodes. -/
theorem root_of_table (tie : List HeapNode → Nat) (frequency : List (Byte × Nat))
    (hne : frequency ≠ []) :
    ∃ root, mergeNodes tie (makeHeap frequency []) = .ok [root] ∧
      (leaves root).Perm frequency ∧ SumsOk root ∧ MergeShape root := by
  have hheap : makeHeap frequency [] ≠ [] := by
    rw [makeHeap_fresh]; simpa using hne
  obtain ⟨root, hroot⟩ := mergeNodes_singleton tie _ hheap
  have hok : ∀ t ∈ makeHeap frequency [], SumsOk t := by
    intro t ht
    obtain ⟨c, f, rfl⟩ := makeHeap_leaf frequency t ht
    trivial
  have hsh : ∀ t ∈ makeHeap frequency [], MergeShape t := by
    intro t ht
    obtain ⟨c, f, rfl⟩ := makeHeap_leaf frequency t ht
    trivial
  obtain ⟨hlv, hs⟩ := mergeLoop_leaves tie _ _ root hok hroot
  rw [makeHeap_fresh, forestLeaves_makeHeap] at hlv
  exact ⟨root, hroot, hlv, hs, mergeLoop_shape tie _ _ root hsh hroot⟩

/-- C16: as long as the frequencies of the heap add up to less than `2^31` (so
that the sum of main.cpp:49 stays in the range of `int`), in every iteration of
the loop of `mergeNodes` the node taken out first becomes the left child and the
node taken out second the right child of a new node carrying the sum of their
frequencies; the left frequency is at most the right one, both are at most the
frequency of every node left in the heap, their sum is below `2^31`, and the
frequencies of the new heap add up to what those of the old heap did. For a
non-empty frequency table whose counts add up to less than `2^31`, every
internal node of the root has this shape, every frequency of the root is below
`2^31`, and the frequency of the root is the sum of the counts, which for the
table of a text is the length of the text. -/
theorem merge_step_shape (tie : List HeapNode → Nat) (frequency : List (Byte × Nat))
    (hne : frequency ≠ []) (hsum : (frequency.map Prod.snd).sum < 2 ^ 31) :
    (∀ (fuel : Nat) (heap : List HeapNode), 1 < heap.length →
      (heap.map HeapNode.frequency).sum < 2 ^ 31 →
      ∃ left right, top tie heap = .ok left ∧ top tie (pop tie heap) = .ok right ∧
        left.frequency ≤ right.frequency ∧
        (∀ y ∈ pop tie (pop tie heap),
          left.frequency ≤ y.frequency ∧ right.frequency ≤ y.frequency) ∧
        left.frequency + right.frequency < 2 ^ 31 ∧
        ((push (pop tie (pop tie heap))
            (.node 0 (left.frequency + right.frequency) left right)).map
          HeapNode.frequency).sum = (heap.map HeapNode.frequency).sum ∧
        mergeLoop tie (fuel + 1) heap = mergeLoop tie fuel
          (push (pop tie (pop tie heap))
            (.node 0 (left.frequency + right.frequency) left right))) ∧
      ∃ root, mergeNodes tie (makeHeap frequency []) = .ok [root] ∧ MergeShape root ∧
        InRange root ∧
        root.frequency = (frequency.map Prod.snd).sum ∧
        ∀ text, frequency = makeFrequencyDict text [] → root.frequency = text.length := by
  constructor
  · intro fuel heap h1 hheap
    obtain ⟨left, right, hl, hr, hstep, _⟩ := mergeLoop_step tie fuel heap h1
    have p1 := pop_perm tie heap left hl
    have p2 := pop_perm tie (pop tie heap) right hr
    have hlr : left.frequency ≤ right.frequency :=
      top_least tie heap left hl right
        (p1.symm.subset (List.mem_cons_of_mem _ (top_mem tie _ right hr)))
    have htotal : (heap.map HeapNode.frequency).sum =
        left.frequency + (right.frequency +
          ((pop tie (pop tie heap)).map HeapNode.frequency).sum) := by
      rw [((p1.trans (p2.cons _)).map HeapNode.frequency).sum_eq]
      simp
    refine ⟨left, right, hl, hr, hlr, ?_, by omega, ?_, hstep⟩
    · intro y hy
      have hy1 : y ∈ pop tie heap := p2.symm.subset (List.mem_cons_of_mem _ hy)
      exact ⟨top_least tie heap left hl y (p1.symm.subset (List.mem_cons_of_mem _ hy1)),
        top_least tie _ right hr y hy1⟩
    · rw [htotal]
      simp only [push, List.map_append, List.sum_append, List.map_cons, List.map_nil,
        List.sum_cons, List.sum_nil, HeapNode.frequency]
      omega
  · obtain ⟨root, hroot, hlv, hs, hsh⟩ := root_of_table tie frequency hne
    have hf : root.frequency = (frequency.map Prod.snd).sum :=
      root_frequency root frequency hs hlv
    refine ⟨root, hroot, hsh, inRange_of_sums root hs (by rw [hf]; exact hsum), hf, ?_⟩
    intro text ht
    rw [hf, ht]
    simpa using sum_makeFrequencyDict text []

/-- Witness for `merge_step_shape`: the frequency table of `aaabbc`. -/
theorem merge_step_shape_witness :
    (∀ (fuel : Nat) (heap : List HeapNode), 1 < heap.length →
      (heap.map HeapNode.frequency).sum < 2 ^ 31 →
      ∃ left right, top firstTie heap = .ok left ∧
        top firstTie (pop firstTie heap) = .ok right ∧
        left.frequency ≤ right.frequency ∧
        (∀ y ∈ pop firstTie (pop firstTie heap),
          left.frequency ≤ y.frequency ∧ right.frequency ≤ y.frequency) ∧
        left.frequency + right.frequency < 2 ^ 31 ∧
        ((push (pop firstTie (pop firstTie heap))
            (.node 0 (left.frequency + right.frequency) left right)).map
          HeapNode.frequency).sum = (heap.map HeapNode.frequency).sum ∧
        mergeLoop firstTie (fuel + 1) heap = mergeLoop firstTie fuel
          (push (pop firstTie (pop firstTie heap))
            (.node 0 (left.frequency + right.frequency) left right))) ∧
      ∃ root, mergeNodes firstTie (makeHeap [(97, 3), (98, 2), (99, 1)] []) = .ok [root] ∧
        MergeShape root ∧ InRange root ∧
        root.frequency = (([(97, 3), (98, 2), (99, 1)] : List (Byte × Nat)).map Prod.snd).sum ∧
        ∀ text, [(97, 3), (98, 2), (99, 1)] = makeFrequencyDict text [] →
          root.frequency = text.length :=
  merge_step_shape firstTie [(97, 3), (98, 2), (99, 1)] (by decide) (by norm_num)

/-- C17: for a frequency table with `k >= 1` entries the loop of `mergeNodes`
shrinks the heap by one node per iteration: after `j` iterations it holds
`k - j` nodes, so it ends after exactly `k - 1` merges, with one node in the
heap. The leaves of that node are the entries of the table, each as often as in
the table, and for `k = 1` the node is the single leaf. -/
theorem mergeNodes_terminates (tie : List HeapNode → Nat) (frequency : List (Byte × Nat))
    (hne : frequency ≠ []) :
    (∀ j, j ≤ frequency.length - 1 →
      ∃ h', mergeLoop tie j (makeHeap frequency []) = .ok h' ∧
        h'.length = frequency.length - j) ∧
      ∃ root, mergeLoop tie (frequency.length - 1) (makeHeap frequency []) = .ok [root] ∧
        mergeNodes tie (makeHeap frequency []) = .ok [root] ∧
        (leaves root).Perm frequency ∧
        ∀ c f, frequency = [(c, f)] → root = .leaf c f := by
  have hheap : makeHeap frequency [] ≠ [] := by
    rw [makeHeap_fresh]; simpa using hne
  have hlen : (makeHeap frequency []).length = frequency.length := by
    rw [makeHeap_fresh, List.length_map]
  have hpos : 0 < frequency.length := List.length_pos.mpr hne
  have hsteps : ∀ j, j ≤ frequency.length - 1 →
      ∃ h', mergeLoop tie j (makeHeap frequency []) = .ok h' ∧
        h'.length = frequency.length - j := by
    intro j hj
    obtain ⟨h', hh, hl⟩ := mergeLoop_length tie j _ hheap
    refine ⟨h', hh, ?_⟩
    rw [hl, hlen, Nat.min_eq_left hj]
  obtain ⟨root, hroot, hlv, _, _⟩ := root_of_table tie frequency hne
  refine ⟨hsteps, root, ?_, hroot, hlv, ?_⟩
  · obtain ⟨h', hh, hl⟩ := hsteps (frequency.length - 1) (le_refl _)
    have h1 : h'.length ≤ 1 := by omega
    have hmore := mergeLoop_more_fuel tie _ _ h' hh h1
    have hk : frequency.length - 1 + 1 = (makeHeap frequency []).length := by
      rw [hlen]; omega
    rw [hk] at hmore
    have : Except.ok h' = Except.ok [root] := hmore.symm.trans hroot
    rw [Except.ok.inj this] at hh
    exact hh
  · intro c f hcf
    subst hcf
    have : mergeNodes tie (makeHeap [(c, f)] []) = .ok [.leaf c f] := by
      simp [mergeNodes, makeHeap, push, mergeLoop]
    have e : Except.ok [root] = Except.ok [HeapNode.leaf c f] := hroot.symm.trans this
    have := Except.ok.inj e
    simpa using this

/-- Witness for `mergeNodes_terminates`: the frequency table of `aaabbc`. -/
theorem mergeNodes_terminates_witness :
    (∀ j, j ≤ ([(97, 3), (98, 2), (99, 1)] : List (Byte × Nat)).length - 1 →
      ∃ h', mergeLoop firstTie j (makeHeap [(97, 3), (98, 2), (99, 1)] []) = .ok h' ∧
        h'.length = ([(97, 3), (98, 2), (99, 1)] : List (Byte × Nat)).length - j) ∧
      ∃ root, mergeLoop firstTie (([(97, 3), (98, 2), (99, 1)] : List (Byte × Nat)).length - 1)
          (makeHeap [(97, 3), (98, 2), (99, 1)] []) = .ok [root] ∧
        mergeNodes firstTie (makeHeap [(97, 3), (98, 2), (99, 1)] []) = .ok [root] ∧
        (leaves root).Perm [(97, 3), (98, 2), (99, 1)] ∧
        ∀ c f, [(97, 3), (98, 2), (99, 1)] = [(c, f)] → root = .leaf c f :=
  mergeNodes_terminates firstTie [(97, 3), (98, 2), (99, 1)] (by decide)

/-! ## The tables as the last assignments -/

theorem makeCodesHelper_fold (t : HeapNode) (p : Bits)
    (tb : Table Byte Bits × Table Bits Byte) :
    makeCodesHelper t p tb =
      (assigned t p).foldl (fun tb e => (Table.set tb.1 e.1 e.2, Table.set tb.2 e.2 e.1)) tb := by
  induction t generalizing p tb with
  | leaf ch f =>
    by_cases hch : ch = 0
    · simp [makeCodesHelper, assigned, hch]
    · simp [makeCodesHelper, assigned, hch]
  | node ch f l r ihl ihr =>
    by_cases hch : ch = 0
    · simp only [makeCodesHelper, assigned, ne_eq, hch, not_true_eq_false, if_false,
        List.foldl_append]
      rw [ihl, ihr]
    · simp [makeCodesHelper, assigned, hch]

theorem lastMatch_or {α β : Type} (P : α → Prop) [DecidablePred P] (g : α → β)
    (A : List α) (init : Option β) :
    A.foldl (fun acc e => if P e then some (g e) else acc) init =
      (A.foldl (fun acc e => if P e then some (g e) else acc) none).or init := by
  induction A generalizing init with
  | nil => simp
  | cons e A ih =>
    simp only [List.foldl_cons]
    rw [ih, ih (if P e then some (g e) else none)]
    by_cases hP : P e
    · simp only [hP, if_true]
      cases List.foldl (fun acc e => if P e then some (g e) else acc) none A <;> simp
    · simp only [hP, if_false]
      cases List.foldl (fun acc e => if P e then some (g e) else acc) none A <;> simp

theorem lastMatch_some {α β : Type} (P : α → Prop) [DecidablePred P] (g : α → β)
    (A : List α) (v : β)
    (h : A.foldl (fun acc e => if P e then some (g e) else acc) none = some v) :
    ∃ e ∈ A, P e ∧ g e = v := by
  induction A using List.reverseRecOn with
  | nil => simp at h
  | append_singleton A e ih =>
    rw [List.foldl_append] at h
    simp only [List.foldl_cons, List.foldl_nil] at h
    by_cases hP : P e
    · rw [if_pos hP] at h
      exact ⟨e, by simp, hP, Option.some.inj h⟩
    · rw [if_neg hP] at h
      obtain ⟨e', he', hp', hg'⟩ := ih h
      exact ⟨e', by simp [he'], hp', hg'⟩

theorem lastMatch_exists {α β : Type} (P : α → Prop) [DecidablePred P] (g : α → β)
    (A : List α) (h : ∃ e ∈ A, P e) :
    ∃ e ∈ A, P e ∧
      A.foldl (fun acc e => if P e then some (g e) else acc) none = some (g e) := by
  induction A using List.reverseRecOn with
  | nil => obtain ⟨e, he, _⟩ := h; simp at he
  | append_singleton A e ih =>
    rw [List.foldl_append]
    simp only [List.foldl_cons, List.foldl_nil]
    by_cases hP : P e
    · exact ⟨e, by simp, hP, by rw [if_pos hP]⟩
    · obtain ⟨x, hx, hPx⟩ := h
      have hxA : x ∈ A := by
        rcases List.mem_append.mp hx with h1 | h1
        · exact h1
        · rw [List.mem_singleton.mp h1] at hPx; exact absurd hPx hP
      obtain ⟨e', he', hp', hg'⟩ := ih ⟨x, hxA, hPx⟩
      exact ⟨e', by simp [he'], hp', by rw [if_neg hP]; exact hg'⟩

theorem lastMatch_none {α β : Type} (P : α → Prop) [DecidablePred P] (g : α → β)
    (A : List α) (h : ∀ e ∈ A, ¬ P e) :
    A.foldl (fun acc e => if P e then some (g e) else acc) none = none := by
  cases hf : A.foldl (fun acc e => if P e then some (g e) else acc) none with
  | none => rfl
  | some v =>
    obtain ⟨e, he, hP, _⟩ := lastMatch_some P g A v hf
    exact absurd hP (h e he)

/-- After `makeCodesHelper`, `codes[k]` is the last code assigned to `k`, or
what it was before when nothing is assigned to `k`. -/
theorem makeCodesHelper_codes_eq (t : HeapNode) (p : Bits)
    (tb : Table Byte Bits × Table Bits Byte) (k : Byte) :
    (makeCodesHelper t p tb).1 k = (lastCode (assigned t p) k).or (tb.1 k) := by
  rw [makeCodesHelper_fold]
  have key : ∀ (A : List (Byte × Bits)) (tb : Table Byte Bits × Table Bits Byte),
      (A.foldl (fun tb e => (Table.set tb.1 e.1 e.2, Table.set tb.2 e.2 e.1)) tb).1 k =
        A.foldl (fun acc e => if k = e.1 then some e.2 else acc) (tb.1 k) := by
    intro A
    induction A with
    | nil => intro tb; rfl
    | cons e A ih =>
      intro tb
      simp only [List.foldl_cons]
      rw [ih]
      rfl
  rw [key, lastMatch_or (fun e : Byte × Bits => k = e.1) (fun e => e.2)]
  rfl

/-- After `makeCodesHelper`, `reverse_mapping[c]` is the last symbol assigned
to `c`, or what it was before when nothing is assigned to `c`. -/
theorem makeCodesHelper_reverse_eq (t : HeapNode) (p : Bits)
    (tb : Table Byte Bits × Table Bits Byte) (c : Bits) :
    (makeCodesHelper t p tb).2 c = (lastSymbol (assigned t p) c).or (tb.2 c) := by
  rw [makeCodesHelper_fold]
  have key : ∀ (A : List (Byte × Bits)) (tb : Table Byte Bits × Table Bits Byte),
      (A.foldl (fun tb e => (Table.set tb.1 e.1 e.2, Table.set tb.2 e.2 e.1)) tb).2 c =
        A.foldl (fun acc e => if c = e.2 then some e.1 else acc) (tb.2 c) := by
    intro A
    induction A with
    | nil => intro tb; rfl
    | cons e A ih =>
      intro tb
      simp only [List.foldl_cons]
      rw [ih]
      rfl
  rw [key, lastMatch_or (fun e : Byte × Bits => c = e.2) (fun e => e.1)]
  rfl

/-! ## What the walk of the tree assigns -/

theorem assigned_ne_zero (t : HeapNode) (p : Bits) : ∀ x ∈ assigned t p, x.1 ≠ 0 := by
  induction t generalizing p with
  | leaf ch f =>
    intro x hx
    by_cases hch : ch = 0
    · simp [assigned, hch] at hx
    · simp only [assigned, ne_eq, hch, not_false_eq_true, if_true, List.mem_singleton] at hx
      rw [hx]; exact hch
  | node ch f l r ihl ihr =>
    intro x hx
    by_cases hch : ch = 0
    · simp only [assigned, ne_eq, hch, not_true_eq_false, if_false, List.mem_append] at hx
      rcases hx with h | h
      · exact ihl _ x h
      · exact ihr _ x h
    · simp only [assigned, ne_eq, hch, not_false_eq_true, if_true, List.mem_singleton] at hx
      rw [hx]; exact hch

/-- In a tree of merged nodes every leaf with a character other than `'\0'` is
assigned a code. -/
theorem assigned_of_leaf (t : HeapNode) (p : Bits) (hs : MergeShape t) :
    ∀ x ∈ leaves t, x.1 ≠ 0 → ∃ c, (x.1, c) ∈ assigned t p := by
  induction t generalizing p with
  | leaf ch f =>
    intro x hx hx0
    simp only [leaves, List.mem_singleton] at hx
    subst hx
    exact ⟨p, by simp [assigned, hx0]⟩
  | node ch f l r ihl ihr =>
    intro x hx hx0
    obtain ⟨hch, _, _, hl, hr⟩ := hs
    simp only [leaves, List.mem_append] at hx
    rcases hx with h | h
    · obtain ⟨c, hc⟩ := ihl (p ++ [false]) hl x h hx0
      exact ⟨c, by simp [assigned, hch, hc]⟩
    · obtain ⟨c, hc⟩ := ihr (p ++ [true]) hr x h hx0
      exact ⟨c, by simp [assigned, hch, hc]⟩

/-- Every assigned code comes from a leaf. -/
theorem assigned_leaf (t : HeapNode) (p : Bits) (hs : MergeShape t) :
    ∀ x ∈ assigned t p, ∃ f, (x.1, f) ∈ leaves t := by
  induction t generalizing p with
  | leaf ch f =>
    intro x hx
    by_cases hch : ch = 0
    · simp [assigned, hch] at hx
    · simp only [assigned, ne_eq, hch, not_false_eq_true, if_true, List.mem_singleton] at hx
      rw [hx]
      exact ⟨f, by simp [leaves]⟩
  | node ch f l r ihl ihr =>
    intro x hx
    obtain ⟨hch, _, _, hl, hr⟩ := hs
    simp only [assigned, ne_eq, hch, not_true_eq_false, if_false, List.mem_append] at hx
    rcases hx with h | h
    · obtain ⟨g, hg⟩ := ihl _ hl x h
      exact ⟨g, by simp [leaves, hg]⟩
    · obtain ⟨g, hg⟩ := ihr _ hr x h
      exact ⟨g, by simp [leaves, hg]⟩

theorem leaves_length_pos (t : HeapNode) : 0 < (leaves t).length := by
  induction t with
  | leaf ch f => simp [leaves]
  | node ch f l r ihl _ => simp only [leaves, List.length_append]; omega

/-- A code is shorter than the number of leaves of the tree. -/
theorem assigned_length (t : HeapNode) (p : Bits) :
    ∀ x ∈ assigned t p, x.2.length + 1 ≤ p.length + (leaves t).length := by
  induction t generalizing p with
  | leaf ch f =>
    intro x hx
    by_cases hch : ch = 0
    · simp [assigned, hch] at hx
    · simp only [assigned, ne_eq, hch, not_false_eq_true, if_true, List.mem_singleton] at hx
      rw [hx]; simp [leaves]
  | node ch f l r ihl ihr =>
    intro x hx
    have hl := leaves_length_pos l
    have hr := leaves_length_pos r
    by_cases hch : ch = 0
    · simp only [assigned, ne_eq, hch, not_true_eq_false, if_false, List.mem_append] at hx
      simp only [leaves, List.length_append]
      rcases hx with h | h
      · have := ihl _ x h
        simp only [List.length_append, List.length_singleton] at this
        omega
      · have := ihr _ x h
        simp only [List.length_append, List.length_singleton] at this
        omega
    · simp only [assigned, ne_eq, hch, not_false_eq_true, if_true, List.mem_singleton] at hx
      rw [hx]
      simp only [leaves, List.length_append]
      omega

/-- Under a merged root no assigned code is empty. -/
theorem assigned_node_nonempty (f : Nat) (l r : HeapNode) :
    ∀ x ∈ assigned (.node 0 f l r) [], x.2 ≠ [] := by
  intro x hx hnil
  simp only [assigned, ne_eq, not_true_eq_false, if_false, List.mem_append,
    List.nil_append] at hx
  rcases hx with h | h
  · have := assigned_extends l _ x h
    rw [hnil] at this
    simp at this
  · have := assigned_extends r _ x h
    rw [hnil] at this
    simp at this

/-- Two assignments of one walk with the same code are the same assignment. -/
theorem assigned_code_unique (t : HeapNode) (p : Bits) (x y : Byte × Bits)
    (hx : x ∈ assigned t p) (hy : y ∈ assigned t p) (h : x.2 = y.2) : x = y := by
  by_contra hne
  have hsymm : Symmetric (fun x y : Byte × Bits => ¬ x.2 <+: y.2 ∧ ¬ y.2 <+: x.2) :=
    fun x y h => ⟨h.2, h.1⟩
  have := (assigned_pairwise t p).forall hsymm hx hy hne
  rw [h] at this
  exact this.1 (List.prefix_refl _)

/-- Two assignments of one walk, one code a prefix of the other, are the same
assignment. -/
theorem assigned_no_prefix (t : HeapNode) (p : Bits) (x y : Byte × Bits)
    (hx : x ∈ assigned t p) (hy : y ∈ assigned t p) (h : x.2 <+: y.2) : x = y := by
  by_contra hne
  have hsymm : Symmetric (fun x y : Byte × Bits => ¬ x.2 <+: y.2 ∧ ¬ y.2 <+: x.2) :=
    fun x y h => ⟨h.2, h.1⟩
  exact ((assigned_pairwise t p).forall hsymm hx hy hne).1 h

theorem lastCode_mem (A : List (Byte × Bits)) (k : Byte) (c : Bits)
    (h : lastCode A k = some c) : (k, c) ∈ A := by
  obtain ⟨e, he, hk, hc⟩ := lastMatch_some (fun e : Byte × Bits => k = e.1) (fun e => e.2) A c h
  have : e = (k, c) := Prod.ext hk.symm hc
  rw [← this]; exact he

theorem lastSymbol_mem (A : List (Byte × Bits)) (c : Bits) (a : Byte)
    (h : lastSymbol A c = some a) : (a, c) ∈ A := by
  obtain ⟨e, he, hc, ha⟩ := lastMatch_some (fun e : Byte × Bits => c = e.2) (fun e => e.1) A a h
  have : e = (a, c) := Prod.ext ha hc.symm
  rw [← this]; exact he

theorem lastCode_of_mem (A : List (Byte × Bits)) (k : Byte) (c0 : Bits) (h : (k, c0) ∈ A) :
    ∃ c, (k, c) ∈ A ∧ lastCode A k = some c := by
  obtain ⟨e, he, hk, hl⟩ :=
    lastMatch_exists (fun e : Byte × Bits => k = e.1) (fun e => e.2) A ⟨(k, c0), h, rfl⟩
  refine ⟨e.2, ?_, hl⟩
  have : e = (k, e.2) := Prod.ext hk.symm rfl
  rw [← this]; exact he

theorem lastCode_none (A : List (Byte × Bits)) (k : Byte) (h : ∀ x ∈ A, x.1 ≠ k) :
    lastCode A k = none :=
  lastMatch_none (fun e : Byte × Bits => k = e.1) (fun e => e.2) A
    (fun e he hk => h e he hk.symm)

/-- In the tables of one walk the inverse table gives back the symbol of every
assigned code. -/
theorem lastSymbol_assigned (t : HeapNode) (p : Bits) (a : Byte) (c : Bits)
    (h : (a, c) ∈ assigned t p) : lastSymbol (assigned t p) c = some a := by
  obtain ⟨e, he, hc, hl⟩ :=
    lastMatch_exists (fun e : Byte × Bits => c = e.2) (fun e => e.1) (assigned t p)
      ⟨(a, c), h, rfl⟩
  have := assigned_code_unique t p e (a, c) he h hc.symm
  rw [this] at hl
  exact hl

/-! ## The encoded text -/

theorem codesAt_fst (codes : Table Byte Bits) (ch : Byte) :
    (codesAt codes ch).1 = (codes ch).getD [] := by
  unfold codesAt
  cases codes ch <;> rfl

theorem codesAt_snd (codes : Table Byte Bits) (ch k : Byte) :
    (codesAt codes ch).2 k = (codes k).or (if k = ch then some [] else none) := by
  unfold codesAt
  cases hc : codes ch with
  | none =>
    by_cases hk : k = ch
    · subst hk; simp [Table.set, hc]
    · simp [Table.set, hk]
  | some c =>
    by_cases hk : k = ch
    · subst hk; simp [hc]
    · simp [hk]

theorem encodeWith_congr (f g : Byte → Bits) (text : List Byte)
    (h : ∀ ch ∈ text, f ch = g ch) : encodeWith f text = encodeWith g text := by
  induction text with
  | nil => rfl
  | cons ch rest ih =>
    simp only [encodeWith]
    rw [h ch (List.mem_cons_self _ _), ih (fun x hx => h x (List.mem_cons_of_mem _ hx))]

theorem getEncodedText_foldl (text : List Byte) (acc : Bits) (codes : Table Byte Bits) :
    (text.foldl (fun (acc : Bits × Table Byte Bits) ch =>
        (acc.1 ++ (codesAt acc.2 ch).1, (codesAt acc.2 ch).2)) (acc, codes)).1 =
        acc ++ encodeWith (fun ch => (codes ch).getD []) text ∧
      ∀ k, (text.foldl (fun (acc : Bits × Table Byte Bits) ch =>
        (acc.1 ++ (codesAt acc.2 ch).1, (codesAt acc.2 ch).2)) (acc, codes)).2 k =
        (codes k).or (if k ∈ text then some [] else none) := by
  induction text generalizing acc codes with
  | nil => simp [encodeWith]
  | cons ch rest ih =>
    simp only [List.foldl_cons]
    obtain ⟨h1, h2⟩ := ih (acc ++ (codesAt codes ch).1) (codesAt codes ch).2
    constructor
    · rw [h1, codesAt_fst, List.append_assoc]
      congr 1
      simp only [encodeWith]
      congr 1
      apply encodeWith_congr
      intro x _
      rw [codesAt_snd]
      cases codes x <;> by_cases hx : x = ch <;> simp [hx]
    · intro k
      rw [h2, codesAt_snd]
      cases codes k <;> by_cases hk : k = ch <;> by_cases hr : k ∈ rest <;> simp [hk, hr]

/-- The text that `getEncodedText` returns: the concatenation of the codes, an
absent code counting as the empty string. -/
theorem getEncodedText_fst (text : List Byte) (codes : Table Byte Bits) :
    (getEncodedText text codes).1 = encodeWith (fun ch => (codes ch).getD []) text := by
  have := (getEncodedText_foldl text [] codes).1
  simpa [getEncodedText] using this

/-- The table that `getEncodedText` leaves: the symbols of the text that had no
code now have the empty code. -/
theorem getEncodedText_snd (text : List Byte) (codes : Table Byte Bits) (k : Byte) :
    (getEncodedText text codes).2 k = (codes k).or (if k ∈ text then some [] else none) :=
  (getEncodedText_foldl text [] codes).2 k

theorem encodeWith_filter (code : Byte → Bits) (text : List Byte) (h0 : code 0 = []) :
    encodeWith code text = encodeWith code (text.filter (fun ch => decide (ch ≠ 0))) := by
  induction text with
  | nil => rfl
  | cons ch rest ih =>
    by_cases hch : ch = 0
    · subst hch
      simp only [encodeWith, h0, List.nil_append]
      rw [ih]
      simp
    · have e : (ch :: rest).filter (fun ch => decide (ch ≠ 0)) =
          ch :: rest.filter (fun ch => decide (ch ≠ 0)) := by
        simp [List.filter_cons, hch]
      rw [e]
      simp only [encodeWith]
      rw [ih]

/-! ## Decoding a concatenation of codes -/

/-- Reading the bits of one code word: when the word is in the inverse table
and none of its shorter non-empty beginnings is, the loop of `decodeText` emits
its symbol and is left with an empty candidate. -/
theorem decode_one (rm : Table Bits Byte) (c : Bits) (s : Byte) (dec : List Byte)
    (hc : c ≠ []) (hrm : rm c = some s)
    (hpre : ∀ q, q <+: c → q ≠ [] → q ≠ c → rm q = none) :
    c.foldl (decodeStep rm) ([], dec) = ([], dec ++ [s]) := by
  have e : c = c.dropLast ++ [c.getLast hc] := (List.dropLast_append_getLast hc).symm
  have hlen : c.dropLast.length + 1 = c.length := by
    conv_rhs => rw [e]
    simp
  have h1 : c.dropLast.foldl (decodeStep rm) ([], dec) = ([] ++ c.dropLast, dec) := by
    apply decodeStep_foldl_none
    intro k hk hk2
    rw [List.nil_append]
    apply hpre
    · exact (List.take_prefix k _).trans (List.dropLast_prefix c)
    · intro hnil
      have := congrArg List.length hnil
      rw [List.length_take] at this
      simp only [List.length_nil] at this
      omega
    · intro heq
      have := congrArg List.length heq
      rw [List.length_take] at this
      omega
  conv_lhs => rw [e]
  rw [List.foldl_append, h1]
  simp only [List.nil_append, List.foldl_cons, List.foldl_nil, decodeStep]
  rw [← e, hrm]

theorem decode_encodeWith (rm : Table Bits Byte) (code : Byte → Bits) (text : List Byte)
    (h : ∀ s ∈ text, code s ≠ [] ∧ rm (code s) = some s ∧
      ∀ q, q <+: code s → q ≠ [] → q ≠ code s → rm q = none)
    (dec : List Byte) :
    (encodeWith code text).foldl (decodeStep rm) ([], dec) = ([], dec ++ text) := by
  induction text generalizing dec with
  | nil => simp [encodeWith]
  | cons s rest ih =>
    obtain ⟨hc, hrm, hpre⟩ := h s (List.mem_cons_self _ _)
    simp only [encodeWith]
    rw [List.foldl_append, decode_one rm (code s) s dec hc hrm hpre,
      ih (fun x hx => h x (List.mem_cons_of_mem _ hx))]
    simp

/-- Decoding the concatenation of the codes of a text gives the text back, when
every code is in the inverse table and no shorter beginning of it is. -/
theorem decodeText_encodeWith (rm : Table Bits Byte) (code : Byte → Bits) (text : List Byte)
    (h : ∀ s ∈ text, code s ≠ [] ∧ rm (code s) = some s ∧
      ∀ q, q <+: code s → q ≠ [] → q ≠ code s → rm q = none) :
    decodeText rm (encodeWith code text) = text := by
  unfold decodeText decodeLoop
  rw [decode_encodeWith rm code text h []]
  rfl

/-! ## Packing and unpacking -/

/-- Unpacking what `padEncodedText` and `getByteArray` packed gives the bits
back. -/
theorem removePadding_packed (bits : Bits) (hlen : bits.length < 2 ^ 64) :
    removePadding (bitString (getByteArray (padEncodedText bits))) = .ok bits := by
  rw [bitString_getByteArray _ _ (padEncodedText_length bits)]
  have hp : padEncodedText bits =
      toBits 8 (8 - bits.length % 8) ++ (bits ++ List.replicate (8 - bits.length % 8) false) :=
    rfl
  have h8 : (toBits 8 (8 - bits.length % 8)).length = 8 := toBits_length _ _
  have hl : ¬ (padEncodedText bits).length < 8 := by
    rw [padEncodedText_length]; omega
  unfold removePadding
  rw [if_neg hl]
  rw [hp, List.take_append_of_le_length (by omega), List.take_of_length_le (by omega),
    List.drop_append_of_le_length (by omega), List.drop_of_length_le (by omega),
    List.nil_append, ofBits_toBits]
  show Except.ok (List.take (((bits ++ List.replicate (8 - bits.length % 8) false).length +
    2 ^ 64 - (8 - bits.length % 8) % 2 ^ 8) % 2 ^ 64)
    (bits ++ List.replicate (8 - bits.length % 8) false)) = Except.ok bits
  rw [List.length_append, List.length_replicate]
  have hmod : (8 - bits.length % 8) % 2 ^ 8 = 8 - bits.length % 8 :=
    Nat.mod_eq_of_lt (by norm_num; omega)
  have hk : (bits.length + (8 - bits.length % 8) + 2 ^ 64 - (8 - bits.length % 8)) % 2 ^ 64
      = bits.length := by
    have : bits.length + (8 - bits.length % 8) + 2 ^ 64 - (8 - bits.length % 8)
        = bits.length + 2 ^ 64 := by omega
    rw [this, Nat.add_mod_right, Nat.mod_eq_of_lt hlen]
  rw [hmod, hk, List.take_left']
  rfl

/-! ## The pipeline of `compress` from any state with an empty heap -/

theorem buildTables_from (tie : List HeapNode → Nat) (s : State) (text : List Byte)
    (root : HeapNode) (hs : s.heap = [])
    (hroot : mergeNodes tie (makeHeap (makeFrequencyDict text []) []) = .ok [root]) :
    buildTables tie s text =
      .ok ⟨(makeCodesHelper root [] (s.codes, s.reverse_mapping)).1,
           (makeCodesHelper root [] (s.codes, s.reverse_mapping)).2, []⟩ := by
  unfold buildTables
  simp only [hs]
  rw [hroot]
  exact makeCodes_singleton tie _ _ root

theorem compress_from (tie : List HeapNode → Nat) (s : State) (text : List Byte)
    (root : HeapNode) (hs : s.heap = [])
    (hroot : mergeNodes tie (makeHeap (makeFrequencyDict text []) []) = .ok [root]) :
    compress tie s text =
      .ok (getByteArray (padEncodedText (getEncodedText text
            (makeCodesHelper root [] (s.codes, s.reverse_mapping)).1).1),
          ⟨(getEncodedText text (makeCodesHelper root [] (s.codes, s.reverse_mapping)).1).2,
           (makeCodesHelper root [] (s.codes, s.reverse_mapping)).2, []⟩) := by
  simp only [compress, buildTables_from tie s text root hs hroot]
  rfl

theorem mem_makeFrequencyDict (text : List Byte) (ch : Byte) (h : ch ∈ text) :
    ∃ n, (ch, n) ∈ makeFrequencyDict text [] := by
  have hl := freqLookup_makeFrequencyDict text [] ch
  rw [if_pos h] at hl
  unfold freqLookup at hl
  cases hf : (makeFrequencyDict text []).find? (fun p => decide (p.1 = ch)) with
  | none => rw [hf] at hl; simp at hl
  | some p =>
    have hp := List.mem_of_find?_eq_some hf
    have hk := List.find?_some hf
    simp only [decide_eq_true_eq] at hk
    refine ⟨p.2, ?_⟩
    rw [← hk]
    exact hp

/-- The root built for a non-empty text: it has the shape of merged nodes, every
byte of the text is the character of a leaf, there are at most 256 leaves, and
with two different bytes in the text the root is a merged node. -/
theorem root_of_text (tie : List HeapNode → Nat) (text : List Byte) (hne : text ≠ []) :
    ∃ root, mergeNodes tie (makeHeap (makeFrequencyDict text []) []) = .ok [root] ∧
      MergeShape root ∧ (∀ ch ∈ text, ∃ f, (ch, f) ∈ leaves root) ∧
      (leaves root).length ≤ 256 ∧
      ((∃ a ∈ text, ∃ b ∈ text, a ≠ b) → ∃ f l r, root = .node 0 f l r) := by
  have hfne : makeFrequencyDict text [] ≠ [] := makeFrequencyDict_ne_nil text [] (Or.inl hne)
  obtain ⟨root, hroot, hlv, _, hsh⟩ := root_of_table tie _ hfne
  have hmem : ∀ ch ∈ text, ∃ f, (ch, f) ∈ leaves root := by
    intro ch hch
    obtain ⟨n, hn⟩ := mem_makeFrequencyDict text ch hch
    exact ⟨n, hlv.symm.subset hn⟩
  refine ⟨root, hroot, hsh, hmem, ?_, ?_⟩
  · have hnd := nodup_makeFrequencyDict text [] (by simp)
    have := hnd.length_le_card
    rw [List.length_map, Fintype.card_fin] at this
    rw [hlv.length_eq]
    exact this
  · rintro ⟨a, ha, b, hb, hab⟩
    cases root with
    | leaf c f =>
      exfalso
      obtain ⟨fa, hfa⟩ := hmem a ha
      obtain ⟨fb, hfb⟩ := hmem b hb
      simp only [leaves, List.mem_singleton, Prod.mk.injEq] at hfa hfb
      exact hab (hfa.1.trans hfb.1.symm)
    | node c f l r =>
      obtain ⟨hc, _⟩ := hsh
      exact ⟨f, l, r, by rw [hc]⟩

/-! ## The round trip -/

theorem codes_fresh_eq (root : HeapNode) (k : Byte) :
    (makeCodesHelper root [] (State.fresh.codes, State.fresh.reverse_mapping)).1 k =
      lastCode (assigned root []) k := by
  rw [makeCodesHelper_codes_eq]
  simp [State.fresh, Table.empty]

theorem reverse_fresh_eq (root : HeapNode) (c : Bits) :
    (makeCodesHelper root [] (State.fresh.codes, State.fresh.reverse_mapping)).2 c =
      lastSymbol (assigned root []) c := by
  rw [makeCodesHelper_reverse_eq]
  simp [State.fresh, Table.empty]

/-- Under a merged root, every byte of the text other than `'\0'` has a
non-empty code that the inverse table maps back to it, and no shorter beginning
of that code is in the inverse table. -/
theorem tables_decode (root : HeapNode) (hsh : MergeShape root)
    (hnode : ∃ f l r, root = HeapNode.node 0 f l r) (text : List Byte)
    (hmem : ∀ ch ∈ text, ∃ f, (ch, f) ∈ leaves root) :
    ∀ s ∈ text.filter (fun ch => decide (ch ≠ 0)),
      (lastCode (assigned root []) s).getD [] ≠ [] ∧
      lastSymbol (assigned root []) ((lastCode (assigned root []) s).getD []) = some s ∧
      ∀ q, q <+: (lastCode (assigned root []) s).getD [] → q ≠ [] →
        q ≠ (lastCode (assigned root []) s).getD [] →
        lastSymbol (assigned root []) q = none := by
  intro s hs
  rw [List.mem_filter] at hs
  obtain ⟨hst, hs0⟩ := hs
  simp only [ne_eq, decide_eq_true_eq] at hs0
  obtain ⟨f, hf⟩ := hmem s hst
  obtain ⟨c0, hc0⟩ := assigned_of_leaf root [] hsh (s, f) hf hs0
  obtain ⟨c, hc, hlast⟩ := lastCode_of_mem _ s c0 hc0
  rw [hlast]
  simp only [Option.getD_some]
  refine ⟨?_, lastSymbol_assigned root [] s c hc, ?_⟩
  · obtain ⟨f', l, r, hr⟩ := hnode
    subst hr
    exact assigned_node_nonempty f' l r (s, c) hc
  · intro q hq _ hqc
    cases hl : lastSymbol (assigned root []) q with
    | none => rfl
    | some a =>
      exfalso
      have hmem2 := lastSymbol_mem _ q a hl
      have := assigned_no_prefix root [] (a, q) (s, c) hmem2 hc hq
      exact hqc (congrArg Prod.snd this)

theorem encodeWith_length_le (code : Byte → Bits) (n : Nat) (h : ∀ s, (code s).length ≤ n)
    (text : List Byte) : (encodeWith code text).length ≤ n * text.length := by
  induction text with
  | nil => simp [encodeWith]
  | cons ch rest ih =>
    simp only [encodeWith, List.length_append, List.length_cons]
    have := h ch
    rw [Nat.mul_succ]
    omega

theorem lastCode_length (root : HeapNode) (h : (leaves root).length ≤ 256) (s : Byte) :
    ((lastCode (assigned root []) s).getD []).length ≤ 255 := by
  cases hl : lastCode (assigned root []) s with
  | none => simp
  | some c =>
    have := assigned_length root [] (s, c) (lastCode_mem _ s c hl)
    simp only [List.length_nil, Nat.zero_add] at this
    simp only [Option.getD_some]
    omega

/-- On a text with two different bytes (and fewer than `2 ^ 31` bytes, so that
the counts fit an `int`): the tables that lines 139-143 build on a fresh object,
the encoded text, which is shorter than `2 ^ 64` bits, and its decoding, which
is the text without its `'\0'` bytes. -/
theorem encode_decode (tie : List HeapNode → Nat) (text : List Byte)
    (h2 : ∃ a ∈ text, ∃ b ∈ text, a ≠ b) (hlen : text.length < 2 ^ 31) :
    ∃ root, mergeNodes tie (makeHeap (makeFrequencyDict text []) []) = .ok [root] ∧
      (getEncodedText text (makeCodesHelper root []
        (State.fresh.codes, State.fresh.reverse_mapping)).1).1.length < 2 ^ 64 ∧
      decodeText (makeCodesHelper root [] (State.fresh.codes, State.fresh.reverse_mapping)).2
        (getEncodedText text (makeCodesHelper root []
          (State.fresh.codes, State.fresh.reverse_mapping)).1).1 =
        text.filter (fun ch => decide (ch ≠ 0)) := by
  have hne : text ≠ [] := by
    obtain ⟨a, ha, _⟩ := h2
    exact List.ne_nil_of_mem ha
  obtain ⟨root, hroot, hsh, hmem, h256, hnode⟩ := root_of_text tie text hne
  have hcodes : (fun ch => ((makeCodesHelper root []
      (State.fresh.codes, State.fresh.reverse_mapping)).1 ch).getD []) =
      fun ch => (lastCode (assigned root []) ch).getD [] := by
    funext ch; rw [codes_fresh_eq]
  have hrev : (makeCodesHelper root [] (State.fresh.codes, State.fresh.reverse_mapping)).2 =
      lastSymbol (assigned root []) := by
    funext c; exact reverse_fresh_eq root c
  have h0 : (lastCode (assigned root []) 0).getD [] = [] := by
    rw [lastCode_none _ 0 (assigned_ne_zero root [])]
    rfl
  have henc : (getEncodedText text (makeCodesHelper root []
      (State.fresh.codes, State.fresh.reverse_mapping)).1).1 =
      encodeWith (fun ch => (lastCode (assigned root []) ch).getD [])
        (text.filter (fun ch => decide (ch ≠ 0))) := by
    rw [getEncodedText_fst, hcodes]
    exact encodeWith_filter _ text h0
  refine ⟨root, hroot, ?_, ?_⟩
  · rw [getEncodedText_fst, hcodes]
    have := encodeWith_length_le _ 255 (lastCode_length root h256) text
    have h3 : 255 * text.length < 2 ^ 64 := by
      have : 255 * text.length < 255 * 2 ^ 31 := by omega
      exact lt_trans this (by norm_num)
    omega
  · rw [henc, hrev,
      decodeText_encodeWith _ _ _ (tables_decode root hsh (hnode h2) text hmem)]

/-- The round trip of `main` on a text with two different bytes (and fewer than
`2 ^ 31` bytes): it returns the text without its `'\0'` bytes. -/
theorem roundTrip_filter (tie : List HeapNode → Nat) (text : List Byte)
    (h2 : ∃ a ∈ text, ∃ b ∈ text, a ≠ b) (hlen : text.length < 2 ^ 31) :
    roundTrip tie text = .ok (text.filter (fun ch => decide (ch ≠ 0))) := by
  obtain ⟨root, hroot, hbound, hdec⟩ := encode_decode tie text h2 hlen
  simp only [roundTrip, compress_from tie State.fresh text root rfl hroot]
  show (do
    let encodedText ← removePadding (bitString (getByteArray (padEncodedText _)))
    pure (decodeText _ encodedText)) = _
  rw [removePadding_packed _ hbound]
  show Except.ok (decodeText _ _) = _
  rw [hdec]

/-- The byte `'\0'` has no entry in the tables that `makeCodesHelper` fills from
those of a fresh object. -/
theorem nul_no_entry (root : HeapNode) :
    (makeCodesHelper root [] (State.fresh.codes, State.fresh.reverse_mapping)).1 0 = none ∧
      ∀ c, (makeCodesHelper root [] (State.fresh.codes, State.fresh.reverse_mapping)).2 c ≠
        some 0 := by
  constructor
  · rw [codes_fresh_eq, lastCode_none _ 0 (assigned_ne_zero root [])]
  · intro c hc
    rw [reverse_fresh_eq] at hc
    exact assigned_ne_zero root [] _ (lastSymbol_mem _ c 0 hc) rfl

/-- Every byte of the text other than `'\0'` has an entry in `codes`, and
`reverse_mapping` maps its code back to it. -/
theorem nonzero_entries (root : HeapNode) (hsh : MergeShape root) (text : List Byte)
    (hmem : ∀ ch ∈ text, ∃ f, (ch, f) ∈ leaves root) :
    ∀ s ∈ text, s ≠ 0 → ∃ c,
      (makeCodesHelper root [] (State.fresh.codes, State.fresh.reverse_mapping)).1 s = some c ∧
      (makeCodesHelper root [] (State.fresh.codes, State.fresh.reverse_mapping)).2 c =
        some s := by
  intro s hs hs0
  obtain ⟨f, hf⟩ := hmem s hs
  obtain ⟨c0, hc0⟩ := assigned_of_leaf root [] hsh (s, f) hf hs0
  obtain ⟨c, hc, hlast⟩ := lastCode_of_mem _ s c0 hc0
  exact ⟨c, by rw [codes_fresh_eq, hlast],
    by rw [reverse_fresh_eq]; exact lastSymbol_assigned root [] s c hc⟩

/-- C19: for every text with two different bytes and no `'\0'` byte (and fewer
than `2 ^ 31` bytes, so that the counts fit an `int`), on a fresh object:
lines 139-143 build the tables; unpacking the packed encoded text gives the
encoded text back; decoding it with `reverse_mapping` gives the text; and so
`compress` followed by `decompress` returns the text. -/
theorem roundTrip_exact (tie : List HeapNode → Nat) (text : List Byte)
    (h2 : ∃ a ∈ text, ∃ b ∈ text, a ≠ b) (h0 : (0 : Byte) ∉ text)
    (hlen : text.length < 2 ^ 31) :
    ∃ st, buildTables tie State.fresh text = .ok st ∧
      removePadding (bitString (getByteArray (padEncodedText
        (getEncodedText text st.codes).1))) = .ok (getEncodedText text st.codes).1 ∧
      decodeText st.reverse_mapping (getEncodedText text st.codes).1 = text ∧
      roundTrip tie text = .ok text := by
  have hfilter : text.filter (fun ch => decide (ch ≠ 0)) = text := by
    rw [List.filter_eq_self]
    intro a ha
    simp only [ne_eq, decide_eq_true_eq]
    intro e
    exact h0 (e ▸ ha)
  obtain ⟨root, hroot, hbound, hdec⟩ := encode_decode tie text h2 hlen
  refine ⟨_, buildTables_from tie State.fresh text root rfl hroot,
    removePadding_packed _ hbound, ?_, ?_⟩
  · rw [hdec, hfilter]
  · rw [roundTrip_filter tie text h2 hlen, hfilter]

/-- Witness for `roundTrip_exact`: the text `aaabbc`. -/
theorem roundTrip_exact_witness :
    ∃ st, buildTables firstTie State.fresh [97, 97, 97, 98, 98, 99] = .ok st ∧
      removePadding (bitString (getByteArray (padEncodedText
        (getEncodedText [97, 97, 97, 98, 98, 99] st.codes).1))) =
        .ok (getEncodedText [97, 97, 97, 98, 98, 99] st.codes).1 ∧
      decodeText st.reverse_mapping (getEncodedText [97, 97, 97, 98, 98, 99] st.codes).1 =
        [97, 97, 97, 98, 98, 99] ∧
      roundTrip firstTie [97, 97, 97, 98, 98, 99] = .ok [97, 97, 97, 98, 98, 99] :=
  roundTrip_exact firstTie [97, 97, 97, 98, 98, 99]
    ⟨97, by decide, 98, by decide, by decide⟩ (by decide) (by norm_num)

/-- C20: for every text with two different bytes (and fewer than `2 ^ 31`
bytes), on a fresh object: after `makeCodes` the byte `'\0'` has no entry in
`codes` and none in `reverse_mapping`, `getEncodedText` encodes it as the empty
string, and `compress` followed by `decompress` returns the text with every
`'\0'` byte deleted, which is not the text when the text has such a byte. -/
theorem roundTrip_drops_nul (tie : List HeapNode → Nat) (text : List Byte)
    (h2 : ∃ a ∈ text, ∃ b ∈ text, a ≠ b) (hlen : text.length < 2 ^ 31) :
    ∃ st, buildTables tie State.fresh text = .ok st ∧
      st.codes 0 = none ∧ (∀ c, st.reverse_mapping c ≠ some 0) ∧
      (codesAt st.codes 0).1 = [] ∧
      roundTrip tie text = .ok (text.filter (fun ch => decide (ch ≠ 0))) ∧
      ((0 : Byte) ∈ text → text.filter (fun ch => decide (ch ≠ 0)) ≠ text) := by
  obtain ⟨root, hroot, _, _⟩ := encode_decode tie text h2 hlen
  obtain ⟨hc0, hr0⟩ := nul_no_entry root
  refine ⟨_, buildTables_from tie State.fresh text root rfl hroot, hc0, hr0, ?_,
    roundTrip_filter tie text h2 hlen, ?_⟩
  · rw [codesAt_fst]
    show ((makeCodesHelper root [] (State.fresh.codes, State.fresh.reverse_mapping)).1 0).getD []
      = []
    rw [hc0]
    rfl
  · intro hmem heq
    rw [List.filter_eq_self] at heq
    have := heq 0 hmem
    simp at this

/-- Witness for `roundTrip_drops_nul`: the text `a`, `'\0'`, `b`. -/
theorem roundTrip_drops_nul_witness :
    ∃ st, buildTables firstTie State.fresh [97, 0, 98] = .ok st ∧
      st.codes 0 = none ∧ (∀ c, st.reverse_mapping c ≠ some 0) ∧
      (codesAt st.codes 0).1 = [] ∧
      roundTrip firstTie [97, 0, 98] =
        .ok (([97, 0, 98] : List Byte).filter (fun ch => decide (ch ≠ 0))) ∧
      ((0 : Byte) ∈ ([97, 0, 98] : List Byte) →
        ([97, 0, 98] : List Byte).filter (fun ch => decide (ch ≠ 0)) ≠ [97, 0, 98]) :=
  roundTrip_drops_nul firstTie [97, 0, 98]
    ⟨97, by decide, 98, by decide, by decide⟩ (by norm_num)

/-- C14: when the text has a `'\0'` byte, that byte has no entry in `codes`
after `makeCodes` on a fresh object, and no code is mapped to it by
`reverse_mapping`; every other byte of the text has an entry, and
`reverse_mapping` maps its code back to it. -/
theorem nul_uncovered (tie : List HeapNode → Nat) (text : List Byte) :
    ∃ st, buildTables tie State.fresh (0 :: text) = .ok st ∧
      st.codes 0 = none ∧ (∀ c, st.reverse_mapping c ≠ some 0) ∧
      ∀ s ∈ text, s ≠ 0 → ∃ c, st.codes s = some c ∧ st.reverse_mapping c = some s := by
  obtain ⟨root, hroot, hsh, hmem, _, _⟩ := root_of_text tie (0 :: text) (by simp)
  obtain ⟨hc0, hr0⟩ := nul_no_entry root
  refine ⟨_, buildTables_from tie State.fresh (0 :: text) root rfl hroot, hc0, hr0, ?_⟩
  intro s hs hs0
  exact nonzero_entries root hsh (0 :: text) hmem s (List.mem_cons_of_mem _ hs) hs0

/-! ## A second call of `compress` on the same object -/

/-- The call `compress(text)` on an object with an empty heap whose `codes`
give `'\0'` no code or the empty one: the output bytes are those of a fresh
object, the tables get the entries of a fresh object, and every other key
keeps what it had. -/
theorem compress_after (tie : List HeapNode → Nat) (s : State) (text : List Byte)
    (hne : text ≠ []) (hs : s.heap = []) (h0 : (s.codes 0).getD [] = []) :
    ∃ out sB s', compress tie State.fresh text = .ok (out, sB) ∧
      compress tie s text = .ok (out, s') ∧
      (∀ k, s'.codes k = (sB.codes k).or (s.codes k)) ∧
      (∀ c, s'.reverse_mapping c = (sB.reverse_mapping c).or (s.reverse_mapping c)) ∧
      sB.heap = [] ∧ s'.heap = [] ∧ (sB.codes 0).getD [] = [] ∧ (s'.codes 0).getD [] = [] := by
  obtain ⟨root, hroot, hsh, hmem, _, _⟩ := root_of_text tie text hne
  have hL0 : lastCode (assigned root []) 0 = none :=
    lastCode_none _ 0 (assigned_ne_zero root [])
  have hLs : ∀ k ∈ text, k ≠ 0 → ∃ c, lastCode (assigned root []) k = some c := by
    intro k hk hk0
    obtain ⟨f, hf⟩ := hmem k hk
    obtain ⟨c0, hc0⟩ := assigned_of_leaf root [] hsh (k, f) hf hk0
    obtain ⟨c, _, hl⟩ := lastCode_of_mem _ k c0 hc0
    exact ⟨c, hl⟩
  have hS0 : s.codes 0 = none ∨ s.codes 0 = some [] := by
    cases hc : s.codes 0 with
    | none => exact Or.inl rfl
    | some v => rw [hc] at h0; simp only [Option.getD_some] at h0; rw [h0]; exact Or.inr rfl
  have henc : (getEncodedText text (makeCodesHelper root [] (s.codes, s.reverse_mapping)).1).1 =
      (getEncodedText text (makeCodesHelper root []
        (State.fresh.codes, State.fresh.reverse_mapping)).1).1 := by
    rw [getEncodedText_fst, getEncodedText_fst]
    apply encodeWith_congr
    intro ch hch
    rw [makeCodesHelper_codes_eq, codes_fresh_eq]
    by_cases hc0 : ch = 0
    · subst hc0
      rw [hL0]
      simpa using h0
    · obtain ⟨c, hc⟩ := hLs ch hch hc0
      rw [hc]
      rfl
  have hcodes : ∀ k, (getEncodedText text
      (makeCodesHelper root [] (s.codes, s.reverse_mapping)).1).2 k =
      ((getEncodedText text (makeCodesHelper root []
        (State.fresh.codes, State.fresh.reverse_mapping)).1).2 k).or (s.codes k) := by
    intro k
    rw [getEncodedText_snd, getEncodedText_snd, makeCodesHelper_codes_eq, codes_fresh_eq]
    cases hl : lastCode (assigned root []) k with
    | some c => simp
    | none =>
      by_cases hk : k ∈ text
      · have hk0 : k = 0 := by
          by_contra hk0
          obtain ⟨c, hc⟩ := hLs k hk hk0
          rw [hc] at hl
          exact Option.noConfusion hl
        subst hk0
        rcases hS0 with e | e <;> simp [hk, e]
      · simp [hk]
  have hfresh0 : ((getEncodedText text (makeCodesHelper root []
      (State.fresh.codes, State.fresh.reverse_mapping)).1).2 0).getD [] = [] := by
    rw [getEncodedText_snd, codes_fresh_eq, hL0]
    by_cases hk : (0 : Byte) ∈ text <;> simp [hk]
  refine ⟨_, _,
    ⟨(getEncodedText text (makeCodesHelper root [] (s.codes, s.reverse_mapping)).1).2,
      (makeCodesHelper root [] (s.codes, s.reverse_mapping)).2, []⟩,
    compress_from tie State.fresh text root rfl hroot, ?_, hcodes, ?_, ?_, ?_,
    hfresh0, ?_⟩
  · rw [compress_from tie s text root hs hroot, henc]
  · intro c
    show (makeCodesHelper root [] (s.codes, s.reverse_mapping)).2 c =
      ((makeCodesHelper root [] (State.fresh.codes, State.fresh.reverse_mapping)).2 c).or
        (s.reverse_mapping c)
    rw [makeCodesHelper_reverse_eq, reverse_fresh_eq]
  · rfl
  · rfl
  · show ((getEncodedText text (makeCodesHelper root [] (s.codes, s.reverse_mapping)).1).2 0).getD
      [] = []
    rw [hcodes 0]
    cases hv : (getEncodedText text (makeCodesHelper root []
      (State.fresh.codes, State.fresh.reverse_mapping)).1).2 0 with
    | none => simpa using h0
    | some v =>
      rw [hv] at hfresh0
      simpa using hfresh0

/-- C12: for every non-empty text, a second `compress` of the text on the same
object, from the state the first call leaves in `codes`, `reverse_mapping` and
`heap`, writes the same bytes as the first call and leaves the tables as they
were. The two calls on two fresh objects are one and the same computation
`compress tie State.fresh text`. -/
theorem compress_deterministic (tie : List HeapNode → Nat) (text : List Byte)
    (hne : text ≠ []) :
    ∃ out s1 s2, compress tie State.fresh text = .ok (out, s1) ∧
      compress tie s1 text = .ok (out, s2) ∧
      compressTwice tie text text = .ok (out, s2) ∧
      (∀ k, s2.codes k = s1.codes k) ∧
      (∀ c, s2.reverse_mapping c = s1.reverse_mapping c) := by
  obtain ⟨out, s1, _, h1, _, _, _, hheap, _, h10, _⟩ :=
    compress_after tie State.fresh text hne rfl rfl
  obtain ⟨out', s1', s2, h1', h2, hc, hr, _⟩ := compress_after tie s1 text hne hheap h10
  have e : (out', s1') = (out, s1) := Except.ok.inj (h1'.symm.trans h1)
  have eo : out' = out := congrArg Prod.fst e
  have es : s1' = s1 := congrArg Prod.snd e
  subst eo
  subst es
  refine ⟨out', s1', s2, h1, h2, ?_, ?_, ?_⟩
  · simp only [compressTwice, h1]
    exact h2
  · intro k
    rw [hc k]
    cases s1'.codes k <;> rfl
  · intro c
    rw [hr c]
    cases s1'.reverse_mapping c <;> rfl

/-- Witness for `compress_deterministic`: the text `aaabbc`. -/
theorem compress_deterministic_witness :
    ∃ out s1 s2, compress firstTie State.fresh [97, 97, 97, 98, 98, 99] = .ok (out, s1) ∧
      compress firstTie s1 [97, 97, 97, 98, 98, 99] = .ok (out, s2) ∧
      compressTwice firstTie [97, 97, 97, 98, 98, 99] [97, 97, 97, 98, 98, 99] =
        .ok (out, s2) ∧
      (∀ k, s2.codes k = s1.codes k) ∧
      (∀ c, s2.reverse_mapping c = s1.reverse_mapping c) :=
  compress_deterministic firstTie [97, 97, 97, 98, 98, 99] (by decide)

/-- C13 (as amended): after `compress(textA)` and `compress(textB)` on one
object, the second call has written the bytes that a fresh object writes for
`textB`, and the tables hold the entries that the fresh object holds, and,
under every other key, the entry that `compress(textA)` left. -/
theorem tables_accumulate (tie : List HeapNode → Nat) (textA textB : List Byte)
    (hA : textA ≠ []) (hB : textB ≠ []) :
    ∃ outA sA outB sB sAB, compress tie State.fresh textA = .ok (outA, sA) ∧
      compress tie State.fresh textB = .ok (outB, sB) ∧
      compressTwice tie textA textB = .ok (outB, sAB) ∧
      (∀ k, sAB.codes k = (sB.codes k).or (sA.codes k)) ∧
      (∀ c, sAB.reverse_mapping c = (sB.reverse_mapping c).or (sA.reverse_mapping c)) := by
  obtain ⟨outA, sA, _, h1, _, _, _, hheap, _, h10, _⟩ :=
    compress_after tie State.fresh textA hA rfl rfl
  obtain ⟨outB, sB, sAB, hB1, hB2, hc, hr, _⟩ := compress_after tie sA textB hB hheap h10
  refine ⟨outA, sA, outB, sB, sAB, h1, hB1, ?_, hc, hr⟩
  simp only [compressTwice, h1]
  exact hB2

/-- Witness for `tables_accumulate`: the texts `xy` and `aaabbc`. -/
theorem tables_accumulate_witness :
    ∃ outA sA outB sB sAB, compress firstTie State.fresh [120, 121] = .ok (outA, sA) ∧
      compress firstTie State.fresh [97, 97, 97, 98, 98, 99] = .ok (outB, sB) ∧
      compressTwice firstTie [120, 121] [97, 97, 97, 98, 98, 99] = .ok (outB, sAB) ∧
      (∀ k, sAB.codes k = (sB.codes k).or (sA.codes k)) ∧
      (∀ c, sAB.reverse_mapping c = (sB.reverse_mapping c).or (sA.reverse_mapping c)) :=
  tables_accumulate firstTie [120, 121] [97, 97, 97, 98, 98, 99] (by decide) (by decide)

/-- C13 (counterexample): after `compress` of `xy` and then of `aaabbc` on one
object, `codes` still holds the code `0` of `x` and `reverse_mapping` still maps
`1` to `y`, entries that a fresh object does not have after `aaabbc`; decoding
the output of the second call gives `aaayyyyya`, where the fresh object gives
`aaabbc`. -/
theorem tables_accumulate_counterexample :
    (compressTwice firstTie [120, 121] [97, 97, 97, 98, 98, 99]).map
        (fun r => r.2.codes 120) = .ok (some [false]) ∧
      (compress firstTie State.fresh [97, 97, 97, 98, 98, 99]).map
        (fun r => r.2.codes 120) = .ok none ∧
      (compressTwice firstTie [120, 121] [97, 97, 97, 98, 98, 99]).map
        (fun r => r.2.reverse_mapping [true]) = .ok (some 121) ∧
      (compress firstTie State.fresh [97, 97, 97, 98, 98, 99]).map
        (fun r => r.2.reverse_mapping [true]) = .ok none ∧
      roundTripAfter firstTie [120, 121] [97, 97, 97, 98, 98, 99] =
        .ok [97, 97, 97, 121, 121, 121, 121, 121, 97] ∧
      roundTrip firstTie [97, 97, 97, 98, 98, 99] = .ok [97, 97, 97, 98, 98, 99] := by
  decide

end HuffmanCoding
